import Mathlib

/-!
Verification of the NCAA odds-ingestion service (odds-ingestion-rust/src/main.rs)
against its natural-language specification.

Strings are modelled as `List Char` (the character sequence of a Rust `String`).
Rust's `str::to_lowercase` is modelled by `Char.toLower` (ASCII case mapping),
which agrees with Rust on the ASCII domain the service manipulates.
-/

namespace OddsIngest

/-- Whitespace test used by the Rust `split_whitespace`, `trim`, `trim_end`. -/
def isWS (c : Char) : Bool := c.isWhitespace

/-- Model of Rust `str::split_whitespace`, accumulator form.
`cur` holds the (reversed) characters of the word being built. -/
def wordsAux (cur : List Char) : List Char → List (List Char)
  | [] => if cur = [] then [] else [cur.reverse]
  | c :: cs =>
    if isWS c then
      if cur = [] then wordsAux [] cs else cur.reverse :: wordsAux [] cs
    else wordsAux (c :: cur) cs

/-- Model of Rust `str::split_whitespace` (the list of maximal non-blank runs). -/
def words (cs : List Char) : List (List Char) := wordsAux [] cs

/-- Model of `Vec<&str>::join(" ")`. -/
def joinWords : List (List Char) → List Char
  | [] => []
  | [w] => w
  | w :: ws => w ++ ' ' :: joinWords ws

/-- Model of Rust `str::trim_start`. -/
def trimStart (cs : List Char) : List Char := cs.dropWhile isWS

/-- Model of Rust `str::trim_end`. -/
def trimEnd (cs : List Char) : List Char := (cs.reverse.dropWhile isWS).reverse

/-- Model of Rust `str::trim`. -/
def trim (cs : List Char) : List Char := trimStart (trimEnd cs)

/-- U+2019 right single quotation mark (the first curly-quote arm in the source). -/
def rsq : Char := Char.ofNat 8217

/-- U+2018 left single quotation mark. -/
def lsq : Char := Char.ofNat 8216

/-- U+2013 en dash. -/
def enDash : Char := Char.ofNat 8211

/-- U+2014 em dash. -/
def emDash : Char := Char.ofNat 8212

/-- ASCII apostrophe, the replacement character for curly quotes. -/
def apos : Char := Char.ofNat 39

/-- The character loop of `normalize_lookup_name`: drops parenthesised text
(tracking `paren_depth`), maps curly quotes to an apostrophe, maps dashes to
spaces, and drops periods.  `d` is the current `paren_depth`. -/
def normChars (d : Nat) : List Char → List Char
  | [] => []
  | c :: cs =>
    if c = '(' then normChars (d + 1) cs
    else if c = ')' then normChars (d - 1) cs
    else if 0 < d then normChars d cs
    else if c = rsq ∨ c = lsq then apos :: normChars d cs
    else if c = enDash ∨ c = emDash ∨ c = '-' then ' ' :: normChars d cs
    else if c = '.' then normChars d cs
    else c :: normChars d cs

/-- Model of `normalize_lookup_name`: character pass, then
`split_whitespace().collect().join(" ").trim()`. -/
def normalize_lookup_name (name : List Char) : List Char :=
  trim (joinWords (words (normChars 0 name)))

/- ### Lemmas about `wordsAux` / `words` -/

theorem wordsAux_nil (cur : List Char) :
    wordsAux cur [] = if cur = [] then [] else [cur.reverse] := rfl

theorem wordsAux_cons_ws (cur : List Char) (c : Char) (cs : List Char) (h : isWS c) :
    wordsAux cur (c :: cs)
      = (if cur = [] then [] else [cur.reverse]) ++ wordsAux [] cs := by
  by_cases hcur : cur = [] <;> simp [wordsAux, h, hcur]

theorem wordsAux_cons_not_ws (cur : List Char) (c : Char) (cs : List Char)
    (h : ¬ isWS c) : wordsAux cur (c :: cs) = wordsAux (c :: cur) cs := by
  simp [wordsAux, h]

/-- Scanning a whitespace-free block just extends the accumulator. -/
theorem wordsAux_append_word (w : List Char) (hw : ∀ c ∈ w, ¬ isWS c) :
    ∀ cur cs, wordsAux cur (w ++ cs) = wordsAux (w.reverse ++ cur) cs := by
  induction w with
  | nil => intro cur cs; simp
  | cons c w ih =>
    intro cur cs
    have hc : ¬ isWS c := hw c (by simp)
    have hw' : ∀ x ∈ w, ¬ isWS x := fun x hx => hw x (by simp [hx])
    simp only [List.cons_append, wordsAux_cons_not_ws _ _ _ hc, ih hw',
      List.reverse_cons, List.append_assoc, List.singleton_append, List.nil_append]

/-- Splitting at a whitespace character splits the word list. -/
theorem wordsAux_split (c : Char) (hc : isWS c) :
    ∀ xs cur b, wordsAux cur (xs ++ c :: b) = wordsAux cur xs ++ wordsAux [] b := by
  intro xs
  induction xs with
  | nil =>
    intro cur b
    simp only [List.nil_append, wordsAux_cons_ws _ _ _ hc, wordsAux_nil]
  | cons x xs ih =>
    intro cur b
    by_cases hx : isWS x
    · simp only [List.cons_append, wordsAux_cons_ws _ _ _ hx, ih, List.append_assoc]
    · simp only [List.cons_append, wordsAux_cons_not_ws _ _ _ hx, ih]

/-- Every word produced by `wordsAux` (from a whitespace-free accumulator)
is nonempty and whitespace-free. -/
theorem wordsAux_sound (cs : List Char) :
    ∀ cur, (∀ c ∈ cur, ¬ isWS c) →
      ∀ w ∈ wordsAux cur cs, w ≠ [] ∧ ∀ c ∈ w, ¬ isWS c := by
  induction cs with
  | nil =>
    intro cur hcur w hw
    by_cases h : cur = []
    · simp [wordsAux_nil, h] at hw
    · simp only [wordsAux_nil, if_neg h, List.mem_singleton] at hw
      subst hw
      exact ⟨by simpa using h, fun c hc => hcur c (List.mem_reverse.mp hc)⟩
  | cons c cs ih =>
    intro cur hcur w hw
    by_cases hc : isWS c
    · rw [wordsAux_cons_ws _ _ _ hc] at hw
      rcases List.mem_append.mp hw with h | h
      · by_cases hcur0 : cur = []
        · simp [hcur0] at h
        · simp only [if_neg hcur0, List.mem_singleton] at h
          subst h
          exact ⟨by simpa using hcur0, fun x hx => hcur x (List.mem_reverse.mp hx)⟩
      · exact ih [] (by simp) w h
    · rw [wordsAux_cons_not_ws _ _ _ hc] at hw
      refine ih (c :: cur) ?_ w hw
      intro x hx
      rcases List.mem_cons.mp hx with h | h
      · subst h; exact hc
      · exact hcur x h

/-- Characters of words come from the accumulator or the input. -/
theorem wordsAux_chars (cs : List Char) :
    ∀ cur w, w ∈ wordsAux cur cs → ∀ c ∈ w, c ∈ cur ∨ c ∈ cs := by
  induction cs with
  | nil =>
    intro cur w hw c hc
    by_cases h : cur = []
    · simp [wordsAux_nil, h] at hw
    · simp only [wordsAux_nil, if_neg h, List.mem_singleton] at hw
      subst hw
      exact Or.inl (List.mem_reverse.mp hc)
  | cons x cs ih =>
    intro cur w hw c hc
    by_cases hx : isWS x
    · rw [wordsAux_cons_ws _ _ _ hx] at hw
      rcases List.mem_append.mp hw with h | h
      · by_cases hcur0 : cur = []
        · simp [hcur0] at h
        · simp only [if_neg hcur0, List.mem_singleton] at h
          subst h
          exact Or.inl (List.mem_reverse.mp hc)
      · rcases ih [] w h c hc with h' | h'
        · simp at h'
        · exact Or.inr (List.mem_cons_of_mem _ h')
    · rw [wordsAux_cons_not_ws _ _ _ hx] at hw
      rcases ih (x :: cur) w hw c hc with h' | h'
      · rcases List.mem_cons.mp h' with h'' | h''
        · subst h''; exact Or.inr (List.mem_cons_self _ _)
        · exact Or.inl h''
      · exact Or.inr (List.mem_cons_of_mem _ h')

/-- `words` of the space-joined word list recovers the word list, provided all
words are nonempty and whitespace-free. -/
theorem words_joinWords (ws : List (List Char))
    (h : ∀ w ∈ ws, w ≠ [] ∧ ∀ c ∈ w, ¬ isWS c) :
    words (joinWords ws) = ws := by
  induction ws with
  | nil => rfl
  | cons w ws ih =>
    obtain ⟨hw, hwf⟩ := h w (by simp)
    cases ws with
    | nil =>
      have h1 := wordsAux_append_word w hwf [] []
      rw [List.append_nil, List.append_nil] at h1
      show words w = [w]
      unfold words
      rw [h1, wordsAux_nil]
      simp [hw]
    | cons w' ws' =>
      have hrest : joinWords (w :: w' :: ws') = w ++ ' ' :: joinWords (w' :: ws') := rfl
      show words (joinWords (w :: w' :: ws')) = w :: w' :: ws'
      rw [hrest]
      show wordsAux [] (w ++ ' ' :: joinWords (w' :: ws')) = w :: w' :: ws'
      rw [wordsAux_append_word w hwf, List.append_nil,
        wordsAux_cons_ws _ _ _ (by decide)]
      have : wordsAux [] (joinWords (w' :: ws')) = w' :: ws' :=
        ih (fun x hx => h x (by simp [hx]))
      rw [this]
      simp [hw]

theorem dropWhile_eq_self_of_head (p : Char → Bool) (c : Char) (cs : List Char)
    (h : ¬ p c) : (c :: cs).dropWhile p = c :: cs := by
  simp [List.dropWhile, h]

/-- `trimEnd` of a list ending in a non-whitespace character is the list itself. -/
theorem trimEnd_eq_self (cs : List Char)
    (h : ∀ c, cs.getLast? = some c → ¬ isWS c) : trimEnd cs = cs := by
  unfold trimEnd
  cases hrev : cs.reverse with
  | nil =>
    have : cs = [] := by simpa using congrArg List.reverse hrev
    simp [this]
  | cons c t =>
    have hlast : cs.getLast? = some c := by
      rw [← List.head?_reverse, hrev]; rfl
    rw [dropWhile_eq_self_of_head _ _ _ (h c hlast), ← hrev, List.reverse_reverse]

/-- `trimStart` of a list starting with a non-whitespace character. -/
theorem trimStart_eq_self (cs : List Char)
    (h : ∀ c, cs.head? = some c → ¬ isWS c) : trimStart cs = cs := by
  unfold trimStart
  cases cs with
  | nil => rfl
  | cons c t => exact dropWhile_eq_self_of_head _ _ _ (h c rfl)

theorem joinWords_head? (w : List Char) (ws : List (List Char)) (hw : w ≠ []) :
    (joinWords (w :: ws)).head? = w.head? := by
  cases ws with
  | nil => rfl
  | cons w' ws' =>
    show (w ++ ' ' :: joinWords (w' :: ws')).head? = w.head?
    cases w with
    | nil => exact absurd rfl hw
    | cons c t => rfl

theorem joinWords_getLast? (ws : List (List Char))
    (h : ∀ w ∈ ws, w ≠ []) :
    ∀ c, (joinWords ws).getLast? = some c → ∃ w ∈ ws, w.getLast? = some c := by
  induction ws with
  | nil => intro c hc; simp [joinWords] at hc
  | cons w ws ih =>
    intro c hc
    cases ws with
    | nil => exact ⟨w, by simp, hc⟩
    | cons w' ws' =>
      have hne : joinWords (w' :: ws') ≠ [] := by
        have h1 : w' ≠ [] := h w' (by simp)
        cases w' with
        | nil => exact absurd rfl h1
        | cons a b =>
          cases ws' with
          | nil => simp [joinWords]
          | cons u v => simp [joinWords]
      have hjw : joinWords (w :: w' :: ws') = w ++ ' ' :: joinWords (w' :: ws') := rfl
      rw [hjw, List.getLast?_append] at hc
      obtain ⟨x, hx⟩ := Option.isSome_iff_exists.mp (List.getLast?_isSome.mpr hne)
      have hcons : (' ' :: joinWords (w' :: ws')).getLast? = some x := by
        rw [List.getLast?_cons, hx]; rfl
      rw [hcons] at hc
      have hxc : x = c := by
        have : some x = some c := hc
        exact Option.some.inj this
      subst hxc
      obtain ⟨u, hu, hlast⟩ := ih (fun v hv => h v (by simp [hv])) x hx
      exact ⟨u, by simp [hu], hlast⟩

/-- `trim` fixes a space-join of nonempty whitespace-free words. -/
theorem trim_joinWords (ws : List (List Char))
    (h : ∀ w ∈ ws, w ≠ [] ∧ ∀ c ∈ w, ¬ isWS c) :
    trim (joinWords ws) = joinWords ws := by
  have hEnd : trimEnd (joinWords ws) = joinWords ws := by
    refine trimEnd_eq_self _ ?_
    intro c hc
    obtain ⟨w, hw, hlast⟩ := joinWords_getLast? ws (fun w hw => (h w hw).1) c hc
    exact (h w hw).2 c (List.mem_of_getLast?_eq_some hlast)
  have hStart : trimStart (joinWords ws) = joinWords ws := by
    refine trimStart_eq_self _ ?_
    intro c hc
    cases ws with
    | nil => simp [joinWords] at hc
    | cons w ws' =>
      rw [joinWords_head? w ws' (h w (by simp)).1] at hc
      exact (h w (by simp)).2 c (List.mem_of_mem_head? hc)
  unfold trim
  rw [hEnd, hStart]

/- ### Characters affected by the `normalize_lookup_name` character pass -/

/-- The characters that the character pass of `normalize_lookup_name` consumes
or rewrites. -/
def specialChar (c : Char) : Prop :=
  c = '(' ∨ c = ')' ∨ c = rsq ∨ c = lsq ∨ c = enDash ∨ c = emDash ∨ c = '-' ∨ c = '.'

instance (c : Char) : Decidable (specialChar c) := by
  unfold specialChar
  infer_instance

/-- The output of the character pass contains no special characters. -/
theorem normChars_chars (cs : List Char) :
    ∀ d, ∀ c ∈ normChars d cs, ¬ specialChar c := by
  induction cs with
  | nil => intro d c hc; simp [normChars] at hc
  | cons x cs ih =>
    intro d c hc
    unfold normChars at hc
    by_cases h1 : x = '('
    · rw [if_pos h1] at hc; exact ih _ c hc
    rw [if_neg h1] at hc
    by_cases h2 : x = ')'
    · rw [if_pos h2] at hc; exact ih _ c hc
    rw [if_neg h2] at hc
    by_cases h3 : 0 < d
    · rw [if_pos h3] at hc; exact ih _ c hc
    rw [if_neg h3] at hc
    by_cases h4 : x = rsq ∨ x = lsq
    · rw [if_pos h4] at hc
      rcases List.mem_cons.mp hc with h | h
      · subst h; decide
      · exact ih _ c h
    rw [if_neg h4] at hc
    by_cases h5 : x = enDash ∨ x = emDash ∨ x = '-'
    · rw [if_pos h5] at hc
      rcases List.mem_cons.mp hc with h | h
      · subst h; decide
      · exact ih _ c h
    rw [if_neg h5] at hc
    by_cases h6 : x = '.'
    · rw [if_pos h6] at hc; exact ih _ c hc
    rw [if_neg h6] at hc
    rcases List.mem_cons.mp hc with h | h
    · subst h
      intro hs
      rcases hs with h | h | h | h | h | h | h | h
      · exact h1 h
      · exact h2 h
      · exact h4 (Or.inl h)
      · exact h4 (Or.inr h)
      · exact h5 (Or.inl h)
      · exact h5 (Or.inr (Or.inl h))
      · exact h5 (Or.inr (Or.inr h))
      · exact h6 h
    · exact ih _ c h

/-- The character pass fixes any string without special characters. -/
theorem normChars_fix (cs : List Char) (h : ∀ c ∈ cs, ¬ specialChar c) :
    normChars 0 cs = cs := by
  induction cs with
  | nil => rfl
  | cons x cs ih =>
    have hx : ¬ specialChar x := h x (by simp)
    have h1 : ¬ x = '(' := fun hh => hx (Or.inl hh)
    have h2 : ¬ x = ')' := fun hh => hx (Or.inr (Or.inl hh))
    have h4 : ¬ (x = rsq ∨ x = lsq) := by
      intro hh
      rcases hh with hh | hh
      · exact hx (Or.inr (Or.inr (Or.inl hh)))
      · exact hx (Or.inr (Or.inr (Or.inr (Or.inl hh))))
    have h5 : ¬ (x = enDash ∨ x = emDash ∨ x = '-') := by
      intro hh
      rcases hh with hh | hh | hh
      · exact hx (Or.inr (Or.inr (Or.inr (Or.inr (Or.inl hh)))))
      · exact hx (Or.inr (Or.inr (Or.inr (Or.inr (Or.inr (Or.inl hh))))))
      · exact hx (Or.inr (Or.inr (Or.inr (Or.inr (Or.inr (Or.inr (Or.inl hh)))))))
    have h6 : ¬ x = '.' :=
      fun hh => hx (Or.inr (Or.inr (Or.inr (Or.inr (Or.inr (Or.inr (Or.inr hh)))))))
    unfold normChars
    rw [if_neg h1, if_neg h2, if_neg (by omega : ¬ (0:Nat) < 0), if_neg h4, if_neg h5,
      if_neg h6, ih (fun c hc => h c (by simp [hc]))]

/-- Membership in a space-join. -/
theorem mem_joinWords (ws : List (List Char)) (c : Char) (hc : c ∈ joinWords ws) :
    c = ' ' ∨ ∃ w ∈ ws, c ∈ w := by
  induction ws with
  | nil => simp [joinWords] at hc
  | cons w ws ih =>
    cases ws with
    | nil => exact Or.inr ⟨w, by simp, hc⟩
    | cons w' ws' =>
      have : c ∈ w ++ ' ' :: joinWords (w' :: ws') := hc
      rcases List.mem_append.mp this with h | h
      · exact Or.inr ⟨w, by simp, h⟩
      · rcases List.mem_cons.mp h with h | h
        · exact Or.inl h
        · rcases ih h with h' | ⟨u, hu, hcu⟩
          · exact Or.inl h'
          · exact Or.inr ⟨u, by simp [hu], hcu⟩

/-- C8: name normalization is idempotent (spec section 4.1 / section 8). -/
theorem normalize_lookup_name_idem (s : List Char) :
    normalize_lookup_name (normalize_lookup_name s) = normalize_lookup_name s := by
  have hsound : ∀ w ∈ words (normChars 0 s), w ≠ [] ∧ ∀ c ∈ w, ¬ isWS c :=
    fun w hw => wordsAux_sound _ [] (by simp) w hw
  have ho : normalize_lookup_name s = joinWords (words (normChars 0 s)) :=
    trim_joinWords _ hsound
  have hchars : ∀ c ∈ joinWords (words (normChars 0 s)), ¬ specialChar c := by
    intro c hc
    rcases mem_joinWords _ c hc with h | ⟨w, hw, hcw⟩
    · subst h; decide
    · rcases wordsAux_chars _ [] w hw c hcw with h | h
      · simp at h
      · exact normChars_chars _ 0 c h
  rw [ho]
  unfold normalize_lookup_name
  rw [normChars_fix _ hchars, words_joinWords _ hsound, trim_joinWords _ hsound]

/- ### Case-mapping lemmas (`str::to_lowercase`, modelled by `Char.toLower`) -/

/-- Only the space character lowercases to a space. -/
theorem toLower_eq_space (c : Char) (h : Char.toLower c = ' ') : c = ' ' := by
  unfold Char.toLower at h
  by_cases hb : Char.toNat c ≥ 65 ∧ Char.toNat c ≤ 90
  · rw [if_pos hb] at h
    exfalso
    obtain ⟨h1, h2⟩ := hb
    generalize hgen : Char.toNat c = n at h1 h2 h
    interval_cases n <;> exact absurd h (by decide)
  · rwa [if_neg hb] at h

/-- Whitespace characters are fixed by `Char.toLower`. -/
theorem toLower_of_ws (c : Char) (h : isWS c) : Char.toLower c = c := by
  unfold isWS Char.isWhitespace at h
  simp only [Bool.or_eq_true, decide_eq_true_eq] at h
  rcases h with ((h | h) | h) | h <;> subst h <;> decide

/-- `Char.toLower` preserves non-whitespace. -/
theorem not_ws_of_not_ws_toLower (c : Char) (h : ¬ isWS (Char.toLower c)) : ¬ isWS c := by
  intro hc
  rw [toLower_of_ws c hc] at h
  exact h hc

/- ### `words` is invariant under trimming -/

theorem words_wsonly (y : List Char) (h : ∀ c ∈ y, isWS c) : words y = [] := by
  induction y with
  | nil => rfl
  | cons c y ih =>
    unfold words
    rw [wordsAux_cons_ws _ _ _ (h c (by simp))]
    simp only [if_pos rfl]
    exact ih (fun x hx => h x (by simp [hx]))

theorem words_append_wsonly (x y : List Char) (h : ∀ c ∈ y, isWS c) :
    words (x ++ y) = words x := by
  cases y with
  | nil => rw [List.append_nil]
  | cons c y =>
    unfold words
    rw [wordsAux_split c (h c (by simp)) x []]
    have : wordsAux [] y = [] := words_wsonly y (fun u hu => h u (by simp [hu]))
    rw [this, List.append_nil]

theorem words_wsonly_append (y x : List Char) (h : ∀ c ∈ y, isWS c) :
    words (y ++ x) = words x := by
  induction y with
  | nil => rw [List.nil_append]
  | cons c y ih =>
    unfold words
    rw [List.cons_append, wordsAux_cons_ws _ _ _ (h c (by simp)), if_pos rfl,
      List.nil_append]
    exact ih (fun u hu => h u (by simp [hu]))

theorem words_trimEnd (x : List Char) : words (trimEnd x) = words x := by
  have hx : x = trimEnd x ++ (x.reverse.takeWhile isWS).reverse := by
    unfold trimEnd
    have h1 := List.takeWhile_append_dropWhile isWS x.reverse
    calc x = x.reverse.reverse := (List.reverse_reverse x).symm
    _ = (x.reverse.takeWhile isWS ++ x.reverse.dropWhile isWS).reverse := by rw [h1]
    _ = (x.reverse.dropWhile isWS).reverse ++ (x.reverse.takeWhile isWS).reverse := by
        rw [List.reverse_append]
  conv_rhs => rw [hx]
  rw [words_append_wsonly]
  intro c hc
  rw [List.mem_reverse] at hc
  have := List.all_takeWhile (l := x.reverse) (p := isWS)
  exact List.all_eq_true.mp this c hc

theorem words_trimStart (x : List Char) : words (trimStart x) = words x := by
  have hx : x = x.takeWhile isWS ++ trimStart x := by
    unfold trimStart
    rw [List.takeWhile_append_dropWhile]
  conv_rhs => rw [hx]
  rw [words_wsonly_append]
  intro c hc
  have := List.all_takeWhile (l := x) (p := isWS)
  exact List.all_eq_true.mp this c hc

theorem words_trim (x : List Char) : words (trim x) = words x := by
  unfold trim
  rw [words_trimStart, words_trimEnd]

/-- Nonempty word list from a list containing a non-blank character. -/
theorem wordsAux_ne_nil (l : List Char) :
    ∀ cur, (cur ≠ [] ∨ ∃ c ∈ l, ¬ isWS c) → wordsAux cur l ≠ [] := by
  induction l with
  | nil =>
    intro cur h
    rcases h with h | ⟨c, hc, _⟩
    · simp [wordsAux_nil, h]
    · simp at hc
  | cons c l ih =>
    intro cur h
    by_cases hc : isWS c
    · rw [wordsAux_cons_ws _ _ _ hc]
      by_cases hcur : cur = []
      · rw [if_pos hcur, List.nil_append]
        refine ih [] (Or.inr ?_)
        rcases h with h | ⟨u, hu, hnu⟩
        · exact absurd hcur h
        · rcases List.mem_cons.mp hu with h' | h'
          · subst h'; exact absurd hc hnu
          · exact ⟨u, h', hnu⟩
      · rw [if_neg hcur]
        simp
    · rw [wordsAux_cons_not_ws _ _ _ hc]
      exact ih (c :: cur) (Or.inl (by simp))

theorem words_ne_nil (l : List Char) (h : ∃ c ∈ l, ¬ isWS c) : words l ≠ [] :=
  wordsAux_ne_nil l [] (Or.inr h)

theorem length_dropWhile_le (p : Char → Bool) (l : List Char) :
    (l.dropWhile p).length ≤ l.length := by
  induction l with
  | nil => simp
  | cons c l ih =>
    by_cases h : p c
    · rw [List.dropWhile_cons_of_pos h, List.length_cons]; omega
    · rw [List.dropWhile_cons_of_neg h]

theorem length_trimEnd_le (l : List Char) : (trimEnd l).length ≤ l.length := by
  unfold trimEnd
  rw [List.length_reverse]
  calc (l.reverse.dropWhile isWS).length ≤ l.reverse.length := length_dropWhile_le _ _
  _ = l.length := List.length_reverse l

theorem trimEnd_append_ws (x : List Char) (c : Char) (h : isWS c) :
    trimEnd (x ++ [c]) = trimEnd x := by
  unfold trimEnd
  rw [List.reverse_append, List.reverse_singleton, List.singleton_append,
    List.dropWhile_cons_of_pos h]

/-- `trimStart` output starts with a non-blank character. -/
theorem trimStart_head (l : List Char) (c : Char) (h : (trimStart l).head? = some c) :
    ¬ isWS c := by
  induction l with
  | nil => simp [trimStart] at h
  | cons x l ih =>
    by_cases hx : isWS x
    · rw [show trimStart (x :: l) = trimStart l from by
        unfold trimStart; rw [List.dropWhile_cons_of_pos hx]] at h
      exact ih h
    · rw [show trimStart (x :: l) = x :: l from by
        unfold trimStart; rw [List.dropWhile_cons_of_neg hx]] at h
      cases h
      exact hx

/- ### Mascot-suffix stripping (`strip_mascot_suffixes`, `MASCOT_SUFFIXES`) -/

/-- The `MASCOT_SUFFIXES` constant, verbatim from the source. -/
def MASCOT_SUFFIXES : List Char :=
  ("blue devils|tar heels|wildcats|tigers|bulldogs|cavaliers|demon deacons|wolfpack|seminoles|cardinals|hurricanes|fighting irish|panthers|orange|hokies|yellow jackets|eagles|jayhawks|bears|red raiders|horned frogs|cowboys|cyclones|mountaineers|longhorns|sooners|cougars|knights|bearcats|boilermakers|wolverines|spartans|hoosiers|fighting illini|buckeyes|hawkeyes|badgers|golden gophers|nittany lions|scarlet knights|terrapins|cornhuskers|bruins|trojans|ducks|huskies|crimson tide|volunteers|razorbacks|gators|rebels|gamecocks|commodores|aggies|sun devils|buffaloes|utes|golden eagles|friars|pirates|red storm|musketeers|hoyas|blue demons|mustangs|golden hurricane|rattlers|49ers|owls|broncos|wolf pack|aztecs|rams|lobos|gaels|dons|waves|lions|pilots|toreros|flyers|billikens|spiders|bonnies|explorers|dukes|colonials|minutemen|hawks|ramblers|anteaters|highlanders|gauchos|tritons|titans|matadors|lancers|hornets|privateers|seahawks|delta devils|monarchs|miners|mean green|roadrunners|bearkats|flames|mountain hawks|leopards|raiders|crusaders|terriers|hilltoppers|blue raiders|thundering herd|red wolves|chanticleers|sycamores|redbirds|salukis|beacons|purple aces|braves|golden grizzlies|vikings|phoenix|penguins|jaguars|norse|lumberjacks|mavericks|islanders|texans|seawolves|great danes|jaspers|red foxes|saints|golden griffins|peacocks|stags|broncs|sharks|red flash").data

/-- Model of Rust `str::split(sep)`: split at every separator, keeping empty
pieces. -/
def splitOnCharAux (sep : Char) (cur : List Char) : List Char → List (List Char)
  | [] => [cur.reverse]
  | c :: cs =>
    if c = sep then cur.reverse :: splitOnCharAux sep [] cs
    else splitOnCharAux sep (c :: cur) cs

def splitOnChar (sep : Char) (cs : List Char) : List (List Char) :=
  splitOnCharAux sep [] cs

/-- One step of the best-suffix selection loop in `strip_mascot_suffixes`:
trim the piece, skip empty pieces and pieces equal to the whole string,
consider pieces that follow a space at the end of `lowered`, and keep the
strictly longer of the current best and the new match. -/
def betterSuffix (lowered : List Char) (best : Option (List Char))
    (raw : List Char) : Option (List Char) :=
  let sfx := trim raw
  if sfx = [] then best
  else if lowered = sfx then best
  else if (' ' :: sfx) <:+ lowered then
    match best with
    | none => some sfx
    | some prev => if sfx.length > prev.length then some sfx else best
  else best

/-- The inner `for suffix in MASCOT_SUFFIXES.split('|')` selection loop. -/
def bestSuffix (lowered : List Char) : Option (List Char) :=
  (splitOnChar '|' MASCOT_SUFFIXES).foldl (betterSuffix lowered) none

/-- Any suffix selected by the loop ends `lowered` after a space and contains a
non-blank character. -/
theorem bestSuffix_spec (lowered sfx : List Char)
    (h : bestSuffix lowered = some sfx) :
    (' ' :: sfx) <:+ lowered ∧ ∃ c ∈ sfx, ¬ isWS c := by
  have key : ∀ (l : List (List Char)) (b : Option (List Char)),
      (∀ s, b = some s → (' ' :: s) <:+ lowered ∧ ∃ c ∈ s, ¬ isWS c) →
      ∀ s, l.foldl (betterSuffix lowered) b = some s →
        (' ' :: s) <:+ lowered ∧ ∃ c ∈ s, ¬ isWS c := by
    intro l
    induction l with
    | nil => intro b hb s hs; exact hb s hs
    | cons raw l ih =>
      intro b hb s hs
      rw [List.foldl_cons] at hs
      refine ih (betterSuffix lowered b raw) ?_ s hs
      intro u hu
      unfold betterSuffix at hu
      by_cases h1 : trim raw = []
      · rw [if_pos h1] at hu; exact hb u hu
      rw [if_neg h1] at hu
      by_cases h2 : lowered = trim raw
      · rw [if_pos h2] at hu; exact hb u hu
      rw [if_neg h2] at hu
      by_cases h3 : (' ' :: trim raw) <:+ lowered
      · rw [if_pos h3] at hu
        have htr : ∃ c ∈ trim raw, ¬ isWS c := by
          cases htrim : trim raw with
          | nil => exact absurd htrim h1
          | cons c t =>
            have hc : ¬ isWS c := by
              apply trimStart_head (trimEnd raw) c
              unfold trim at htrim
              rw [htrim]
              rfl
            exact ⟨c, by simp, hc⟩
        cases b with
        | none =>
          have heq : some (trim raw) = some u := hu
          cases heq
          exact ⟨h3, htr⟩
        | some prev =>
          have hu' : (if (trim raw).length > prev.length then some (trim raw)
              else some prev) = some u := hu
          by_cases h4 : (trim raw).length > prev.length
          · rw [if_pos h4] at hu'
            cases hu'
            exact ⟨h3, htr⟩
          · rw [if_neg h4] at hu'
            exact hb u hu'
      · rw [if_neg h3] at hu; exact hb u hu
  exact key _ none (by intro s hs; cases hs) sfx h

/-- One iteration of the stripping loop in `strip_mascot_suffixes`:
`None` models `break`. -/
def stripStep (current : List Char) : Option (List Char) :=
  let lowered := current.map Char.toLower
  match bestSuffix lowered with
  | none => none
  | some sfx =>
    let newLen := lowered.length - sfx.length
    let trimmed := trimEnd (current.take newLen)
    if trimmed = [] ∨ trimmed = current then none else some trimmed

/-- A continuing iteration strictly shortens the string and strictly decreases
its token count. -/
theorem stripStep_lt (current t : List Char) (h : stripStep current = some t) :
    t.length < current.length ∧ (words t).length < (words current).length := by
  simp only [stripStep] at h
  cases hbest : bestSuffix (current.map Char.toLower) with
  | none => rw [hbest] at h; cases h
  | some sfx =>
    rw [hbest] at h
    dsimp only at h
    obtain ⟨hsfx, c0, hc0, hnws⟩ := bestSuffix_spec _ _ hbest
    obtain ⟨pre, hpre⟩ := hsfx
    -- decompose current along the suffix match on its lowercase image
    obtain ⟨l₁, l₂, hcur, hmap1, hmap2⟩ := List.map_eq_append_iff.mp hpre.symm
    cases l₂ with
    | nil => exact absurd hmap2 (by simp)
    | cons spc sfxRaw =>
      simp only [List.map_cons, List.cons.injEq] at hmap2
      obtain ⟨hspc, hmap2⟩ := hmap2
      have hspc' : spc = ' ' := toLower_eq_space spc hspc
      subst hspc'
      have hlen : (current.map Char.toLower).length = current.length := by
        rw [List.length_map]
      have hlensfx : sfxRaw.length = sfx.length := by
        rw [← hmap2, List.length_map]
      have hlencur : current.length = l₁.length + 1 + sfx.length := by
        rw [hcur]
        simp only [List.length_append, List.length_cons, hlensfx]
        omega
      have hnewlen : (current.map Char.toLower).length - sfx.length = l₁.length + 1 := by
        omega
      have htake : current.take ((current.map Char.toLower).length - sfx.length)
          = l₁ ++ [' '] := by
        rw [hnewlen, hcur]
        rw [show l₁ ++ ' ' :: sfxRaw = (l₁ ++ [' ']) ++ sfxRaw by simp]
        apply List.take_left'
        simp
      rw [htake] at h
      have htrimmed : trimEnd (l₁ ++ [' ']) = trimEnd l₁ :=
        trimEnd_append_ws l₁ ' ' (by decide)
      rw [htrimmed] at h
      by_cases hguard : trimEnd l₁ = [] ∨ trimEnd l₁ = current
      · rw [if_pos hguard] at h; cases h
      · rw [if_neg hguard] at h
        cases h
        constructor
        · -- length decreases
          have h1 : (trimEnd l₁).length ≤ l₁.length := length_trimEnd_le l₁
          omega
        · -- token count decreases
          have hwcur : words current = words l₁ ++ words sfxRaw := by
            rw [hcur]
            exact wordsAux_split ' ' (by decide) l₁ [] sfxRaw
          have hwt : words (trimEnd l₁) = words l₁ := words_trimEnd l₁
          have hne : words sfxRaw ≠ [] := by
            apply words_ne_nil
            obtain ⟨c0', hc0', hmapc⟩ := by
              rw [← hmap2] at hc0
              exact List.mem_map.mp hc0
            refine ⟨c0', hc0', ?_⟩
            apply not_ws_of_not_ws_toLower
            rw [hmapc]
            exact hnws
          rw [hwt, hwcur, List.length_append]
          have : 0 < (words sfxRaw).length := List.length_pos.mpr hne
          omega

/-- The stripping loop of `strip_mascot_suffixes`; returns the list of
successively shortened strings that the Rust loop pushes to `out`. -/
def stripLoop (current : List Char) : List (List Char) :=
  match h : stripStep current with
  | none => []
  | some t => t :: stripLoop t
termination_by current.length
decreasing_by exact (stripStep_lt _ _ h).1

/-- Model of `strip_mascot_suffixes`. -/
def strip_mascot_suffixes (name : List Char) : List (List Char) :=
  stripLoop (trim name)

theorem stripLoop_chain (n : Nat) : ∀ cur : List Char, cur.length ≤ n →
    List.Chain' (fun a b => b.length < a.length) (cur :: stripLoop cur) := by
  induction n with
  | zero =>
    intro cur hn
    unfold stripLoop
    cases hstep : stripStep cur with
    | none => simp
    | some t =>
      have := (stripStep_lt _ _ hstep).1
      omega
  | succ n ih =>
    intro cur hn
    unfold stripLoop
    cases hstep : stripStep cur with
    | none => simp
    | some t =>
      rw [List.chain'_cons]
      have hlt := (stripStep_lt _ _ hstep).1
      exact ⟨hlt, ih t (by omega)⟩

theorem stripLoop_le_words (n : Nat) : ∀ cur : List Char, (words cur).length ≤ n →
    (stripLoop cur).length ≤ (words cur).length := by
  induction n with
  | zero =>
    intro cur hn
    unfold stripLoop
    cases hstep : stripStep cur with
    | none => simp
    | some t =>
      have := (stripStep_lt _ _ hstep).2
      omega
  | succ n ih =>
    intro cur hn
    unfold stripLoop
    cases hstep : stripStep cur with
    | none => simp
    | some t =>
      have hlt := (stripStep_lt _ _ hstep).2
      have := ih t (by omega)
      simp only [List.length_cons]
      omega

/-- C9: the mascot-suffix-stripping loop terminates within at most the token
count of the input, and every iteration strictly shortens the string
(spec section 4.2 / section 8). -/
theorem strip_mascot_suffixes_bounded (name : List Char) :
    (strip_mascot_suffixes name).length ≤ (words name).length ∧
    List.Chain' (fun a b => b.length < a.length)
      (trim name :: strip_mascot_suffixes name) := by
  constructor
  · have h1 := stripLoop_le_words ((words (trim name)).length) (trim name) (le_refl _)
    rw [words_trim] at h1
    exact h1
  · exact stripLoop_chain ((trim name).length) (trim name) (le_refl _)

/- ### Snapshot extraction (`extract_odds_snapshot`) -/

/-- One bookmaker outcome (`Outcome` in the source); `f64` points are modelled
as rationals, `i32` prices as integers. -/
structure BkOutcome where
  name : List Char
  price : Option Int
  point : Option ℚ
deriving DecidableEq

/-- One bookmaker market (`Market` in the source). -/
structure BkMarket where
  key : List Char
  outcomes : List BkOutcome
deriving DecidableEq

/-- A normalized odds snapshot (`OddsSnapshot` in the source). -/
structure Snapshot where
  time : Int
  game_id : Nat
  external_id : List Char
  bookmaker : List Char
  market_type : List Char
  period : List Char
  home_line : Option ℚ
  away_line : Option ℚ
  total_line : Option ℚ
  home_price : Option Int
  away_price : Option Int
  over_price : Option Int
  under_price : Option Int
deriving DecidableEq

/-- The `match market.key.as_str()` table at the top of `extract_odds_snapshot`. -/
def marketKeyMap (key : List Char) : Option (List Char × List Char) :=
  if key = "spreads".data then some ("spreads".data, "full".data)
  else if key = "totals".data then some ("totals".data, "full".data)
  else if key = "spreads_h1".data then some ("spreads".data, "1h".data)
  else if key = "totals_h1".data then some ("totals".data, "1h".data)
  else if key = "spreads_h2".data then some ("spreads".data, "2h".data)
  else if key = "totals_h2".data then some ("totals".data, "2h".data)
  else none

/-- The body of the `for outcome in &market.outcomes` loop. -/
def applyOutcome (market_type home_team : List Char)
    (s : Snapshot) (o : BkOutcome) : Snapshot :=
  if market_type = "spreads".data then
    if o.name = home_team then { s with home_line := o.point, home_price := o.price }
    else { s with away_line := o.point, away_price := o.price }
  else if market_type = "totals".data then
    if o.name = "Over".data then { s with total_line := o.point, over_price := o.price }
    else if o.name = "Under".data then { s with under_price := o.price }
    else s
  else s

/-- The condition of the non-fatal spread sanity check at the end of
`extract_odds_snapshot` (its only effect in the source is a `warn!` log). -/
def spreadWarning (market_type : List Char) (s : Snapshot) : Prop :=
  market_type = "spreads".data ∧
    ∃ h a : ℚ, s.home_line = some h ∧ s.away_line = some a ∧ |h + a| > 1/2

/-- Model of `extract_odds_snapshot`.  The spread sanity check only logs in
the source, so it does not appear in the returned value. -/
def extract_odds_snapshot (time : Int) (game_id : Nat)
    (external_id bookmaker : List Char) (market : BkMarket)
    (home_team : List Char) : Option Snapshot :=
  match marketKeyMap market.key with
  | none => none
  | some (market_type, period) =>
    let base : Snapshot :=
      { time := time, game_id := game_id, external_id := external_id,
        bookmaker := bookmaker, market_type := market_type, period := period,
        home_line := none, away_line := none, total_line := none,
        home_price := none, away_price := none, over_price := none,
        under_price := none }
    some (market.outcomes.foldl (applyOutcome market_type home_team) base)

/- ### Lemmas about `extract_odds_snapshot` -/

theorem applyOutcome_meta (mt home : List Char) (s : Snapshot) (o : BkOutcome) :
    (applyOutcome mt home s o).market_type = s.market_type ∧
    (applyOutcome mt home s o).period = s.period := by
  unfold applyOutcome
  split_ifs <;> exact ⟨rfl, rfl⟩

theorem foldl_meta (mt home : List Char) (outs : List BkOutcome) :
    ∀ s : Snapshot,
      (outs.foldl (applyOutcome mt home) s).market_type = s.market_type ∧
      (outs.foldl (applyOutcome mt home) s).period = s.period := by
  induction outs with
  | nil => intro s; exact ⟨rfl, rfl⟩
  | cons o outs ih =>
    intro s
    rw [List.foldl_cons]
    obtain ⟨h1, h2⟩ := ih (applyOutcome mt home s o)
    obtain ⟨h3, h4⟩ := applyOutcome_meta mt home s o
    exact ⟨h1.trans h3, h2.trans h4⟩

theorem marketKeyMap_none_iff (key : List Char) :
    marketKeyMap key = none ↔
      ¬ (key = "spreads".data ∨ key = "totals".data ∨
         key = "spreads_h1".data ∨ key = "totals_h1".data ∨
         key = "spreads_h2".data ∨ key = "totals_h2".data) := by
  unfold marketKeyMap
  by_cases h1 : key = "spreads".data
  · rw [if_pos h1]; simp [h1]
  rw [if_neg h1]
  by_cases h2 : key = "totals".data
  · rw [if_pos h2]; simp [h1, h2]
  rw [if_neg h2]
  by_cases h3 : key = "spreads_h1".data
  · rw [if_pos h3]; simp [h1, h2, h3]
  rw [if_neg h3]
  by_cases h4 : key = "totals_h1".data
  · rw [if_pos h4]; simp [h1, h2, h3, h4]
  rw [if_neg h4]
  by_cases h5 : key = "spreads_h2".data
  · rw [if_pos h5]; simp [h1, h2, h3, h4, h5]
  rw [if_neg h5]
  by_cases h6 : key = "totals_h2".data
  · rw [if_pos h6]; simp [h1, h2, h3, h4, h5, h6]
  rw [if_neg h6]
  simp [h1, h2, h3, h4, h5, h6]

theorem marketKeyMap_mem (key : List Char) (r : List Char × List Char)
    (h : marketKeyMap key = some r) :
    (key, r.1, r.2) ∈ [
      ("spreads".data, "spreads".data, "full".data),
      ("totals".data, "totals".data, "full".data),
      ("spreads_h1".data, "spreads".data, "1h".data),
      ("totals_h1".data, "totals".data, "1h".data),
      ("spreads_h2".data, "spreads".data, "2h".data),
      ("totals_h2".data, "totals".data, "2h".data)] := by
  unfold marketKeyMap at h
  by_cases h1 : key = "spreads".data
  · rw [if_pos h1] at h; cases h; simp [h1]
  rw [if_neg h1] at h
  by_cases h2 : key = "totals".data
  · rw [if_pos h2] at h; cases h; simp [h2]
  rw [if_neg h2] at h
  by_cases h3 : key = "spreads_h1".data
  · rw [if_pos h3] at h; cases h; simp [h3]
  rw [if_neg h3] at h
  by_cases h4 : key = "totals_h1".data
  · rw [if_pos h4] at h; cases h; simp [h4]
  rw [if_neg h4] at h
  by_cases h5 : key = "spreads_h2".data
  · rw [if_pos h5] at h; cases h; simp [h5]
  rw [if_neg h5] at h
  by_cases h6 : key = "totals_h2".data
  · rw [if_pos h6] at h; cases h; simp [h6]
  rw [if_neg h6] at h
  cases h

/-- C7: `extract_odds_snapshot` returns `None` exactly on unrecognized market
keys; recognized keys map to (market type, period) by the `_h1`/`_h2`/no-suffix
convention; and whether a snapshot is returned never depends on the outcomes,
so the spread sanity check (which only logs) cannot reject a snapshot
(spec section 4.6). -/
theorem extract_odds_snapshot_spec (time : Int) (game_id : Nat)
    (external_id bookmaker : List Char) (market : BkMarket) (home_team : List Char) :
    (extract_odds_snapshot time game_id external_id bookmaker market home_team = none ↔
      ¬ (market.key = "spreads".data ∨ market.key = "totals".data ∨
         market.key = "spreads_h1".data ∨ market.key = "totals_h1".data ∨
         market.key = "spreads_h2".data ∨ market.key = "totals_h2".data)) ∧
    (∀ s, extract_odds_snapshot time game_id external_id bookmaker market home_team
        = some s →
      (market.key, s.market_type, s.period) ∈ [
        ("spreads".data, "spreads".data, "full".data),
        ("totals".data, "totals".data, "full".data),
        ("spreads_h1".data, "spreads".data, "1h".data),
        ("totals_h1".data, "totals".data, "1h".data),
        ("spreads_h2".data, "spreads".data, "2h".data),
        ("totals_h2".data, "totals".data, "2h".data)]) ∧
    (∀ outs2 : List BkOutcome,
      (extract_odds_snapshot time game_id external_id bookmaker
        { key := market.key, outcomes := outs2 } home_team).isSome
      = (extract_odds_snapshot time game_id external_id bookmaker market
          home_team).isSome) := by
  refine ⟨?_, ?_, ?_⟩
  · unfold extract_odds_snapshot
    cases hk : marketKeyMap market.key with
    | none =>
      simp only []
      constructor
      · intro _; exact (marketKeyMap_none_iff market.key).mp hk
      · intro _; trivial
    | some r =>
      obtain ⟨mt, period⟩ := r
      simp only []
      constructor
      · intro hcontra; cases hcontra
      · intro hmem
        exfalso
        have hrec := marketKeyMap_mem market.key (mt, period) hk
        apply hmem
        simp only [List.mem_cons, Prod.mk.injEq, List.mem_singleton] at hrec
        rcases hrec with ⟨h, _⟩ | ⟨h, _⟩ | ⟨h, _⟩ | ⟨h, _⟩ | ⟨h, _⟩ | ⟨h, _⟩ | h <;>
          simp_all
  · intro s hs
    unfold extract_odds_snapshot at hs
    cases hk : marketKeyMap market.key with
    | none => rw [hk] at hs; cases hs
    | some r =>
      obtain ⟨mt, period⟩ := r
      rw [hk] at hs
      dsimp only at hs
      cases hs
      obtain ⟨hmt, hper⟩ := foldl_meta mt home_team market.outcomes
        { time := time, game_id := game_id, external_id := external_id,
          bookmaker := bookmaker, market_type := mt, period := period,
          home_line := none, away_line := none, total_line := none,
          home_price := none, away_price := none, over_price := none,
          under_price := none }
      rw [hmt, hper]
      exact marketKeyMap_mem market.key (mt, period) hk
  · intro outs2
    unfold extract_odds_snapshot
    cases hk : marketKeyMap market.key with
    | none => rfl
    | some r => obtain ⟨mt, period⟩ := r; rfl

/- ### Totals markets: only "Over"/"Under" outcomes matter -/

theorem applyOutcome_totals_shape (home : List Char) (s : Snapshot) (o : BkOutcome) :
    ∃ tl op up, applyOutcome ("totals".data) home s o
      = { s with total_line := tl, over_price := op, under_price := up } := by
  unfold applyOutcome
  rw [if_neg (by decide : ¬ ("totals".data = "spreads".data)), if_pos rfl]
  by_cases h1 : o.name = "Over".data
  · rw [if_pos h1]; exact ⟨o.point, o.price, s.under_price, rfl⟩
  · rw [if_neg h1]
    by_cases h2 : o.name = "Under".data
    · rw [if_pos h2]; exact ⟨s.total_line, s.over_price, o.price, rfl⟩
    · rw [if_neg h2]; exact ⟨s.total_line, s.over_price, s.under_price, rfl⟩

theorem applyOutcome_totals_other (home : List Char) (s : Snapshot) (o : BkOutcome)
    (h1 : o.name ≠ "Over".data) (h2 : o.name ≠ "Under".data) :
    applyOutcome ("totals".data) home s o = s := by
  unfold applyOutcome
  rw [if_neg (by decide : ¬ ("totals".data = "spreads".data)), if_pos rfl,
    if_neg h1, if_neg h2]

theorem applyOutcome_totals_under (home : List Char) (s : Snapshot) (o : BkOutcome)
    (h1 : o.name ≠ "Over".data) (h2 : o.name = "Under".data) :
    applyOutcome ("totals".data) home s o = { s with under_price := o.price } := by
  unfold applyOutcome
  rw [if_neg (by decide : ¬ ("totals".data = "spreads".data)), if_pos rfl,
    if_neg h1, if_pos h2]

/-- Totals processing never touches the spread fields. -/
theorem foldl_totals_fields (home : List Char) (outs : List BkOutcome) :
    ∀ s : Snapshot,
      (outs.foldl (applyOutcome ("totals".data) home) s).home_line = s.home_line ∧
      (outs.foldl (applyOutcome ("totals".data) home) s).away_line = s.away_line ∧
      (outs.foldl (applyOutcome ("totals".data) home) s).home_price = s.home_price ∧
      (outs.foldl (applyOutcome ("totals".data) home) s).away_price = s.away_price := by
  induction outs with
  | nil => intro s; exact ⟨rfl, rfl, rfl, rfl⟩
  | cons o outs ih =>
    intro s
    rw [List.foldl_cons]
    obtain ⟨tl, op, up, hshape⟩ := applyOutcome_totals_shape home s o
    obtain ⟨i1, i2, i3, i4⟩ := ih (applyOutcome ("totals".data) home s o)
    rw [hshape] at i1 i2 i3 i4 ⊢
    exact ⟨i1, i2, i3, i4⟩

/-- Without an "Over" outcome, neither the total line nor the over price is set. -/
theorem foldl_totals_no_over (home : List Char) (outs : List BkOutcome)
    (h : ∀ o ∈ outs, o.name ≠ "Over".data) :
    ∀ s : Snapshot,
      (outs.foldl (applyOutcome ("totals".data) home) s).total_line = s.total_line ∧
      (outs.foldl (applyOutcome ("totals".data) home) s).over_price = s.over_price := by
  induction outs with
  | nil => intro s; exact ⟨rfl, rfl⟩
  | cons o outs ih =>
    intro s
    rw [List.foldl_cons]
    have ho : o.name ≠ "Over".data := h o (by simp)
    have hrest : ∀ u ∈ outs, u.name ≠ "Over".data := fun u hu => h u (by simp [hu])
    by_cases hu : o.name = "Under".data
    · rw [applyOutcome_totals_under home s o ho hu]
      exact ih hrest _
    · rw [applyOutcome_totals_other home s o ho hu]
      exact ih hrest s

/-- Outcomes that are neither "Over" nor "Under" are ignored by totals
processing. -/
theorem foldl_totals_filter (home : List Char) (outs : List BkOutcome) :
    ∀ s : Snapshot,
      (outs.filter
        (fun o => decide (o.name = "Over".data ∨ o.name = "Under".data))).foldl
        (applyOutcome ("totals".data) home) s
      = outs.foldl (applyOutcome ("totals".data) home) s := by
  induction outs with
  | nil => intro s; rfl
  | cons o outs ih =>
    intro s
    by_cases h : o.name = "Over".data ∨ o.name = "Under".data
    · rw [List.filter_cons_of_pos (by simpa using h), List.foldl_cons, List.foldl_cons,
        ih]
    · push_neg at h
      rw [List.filter_cons_of_neg (by simpa using h), List.foldl_cons,
        applyOutcome_totals_other home s o h.1 h.2, ih]

/-- C10: in a totals market only an outcome named "Over" can set the total
line and over price, "Under" sets only the under price, all other outcome
names are ignored, and the spread fields stay empty; in particular an
Under-only totals market yields a snapshot whose total_line is None
(source lines 930-951). -/
theorem extract_totals_outcomes (time : Int) (game_id : Nat)
    (external_id bookmaker : List Char) (market : BkMarket) (home_team : List Char)
    (hkey : market.key = "totals".data ∨ market.key = "totals_h1".data ∨
      market.key = "totals_h2".data) :
    ∃ s, extract_odds_snapshot time game_id external_id bookmaker market home_team
        = some s ∧
      ((∀ o ∈ market.outcomes, o.name ≠ "Over".data) →
        s.total_line = none ∧ s.over_price = none) ∧
      ((∀ o ∈ market.outcomes, o.name ≠ "Over".data ∧ o.name ≠ "Under".data) →
        s.total_line = none ∧ s.over_price = none ∧ s.under_price = none) ∧
      s.home_line = none ∧ s.away_line = none ∧
      s.home_price = none ∧ s.away_price = none ∧
      extract_odds_snapshot time game_id external_id bookmaker
        { key := market.key,
          outcomes := market.outcomes.filter
            (fun o => decide (o.name = "Over".data ∨ o.name = "Under".data)) }
        home_team = some s := by
  have hmap : ∃ per, marketKeyMap market.key = some ("totals".data, per) := by
    rcases hkey with h | h | h <;> rw [h] <;> unfold marketKeyMap
    · exact ⟨"full".data, by rw [if_neg (by decide), if_pos rfl]⟩
    · exact ⟨"1h".data, by
        rw [if_neg (by decide), if_neg (by decide), if_neg (by decide), if_pos rfl]⟩
    · exact ⟨"2h".data, by
        rw [if_neg (by decide), if_neg (by decide), if_neg (by decide),
          if_neg (by decide), if_neg (by decide), if_pos rfl]⟩
  obtain ⟨per, hper⟩ := hmap
  refine ⟨market.outcomes.foldl (applyOutcome ("totals".data) home_team)
      { time := time, game_id := game_id, external_id := external_id,
        bookmaker := bookmaker, market_type := "totals".data, period := per,
        home_line := none, away_line := none, total_line := none,
        home_price := none, away_price := none, over_price := none,
        under_price := none },
    ?_, ?_, ?_, ?_, ?_, ?_, ?_, ?_⟩
  · unfold extract_odds_snapshot
    rw [hper]
  · intro hno
    exact foldl_totals_no_over home_team market.outcomes hno _
  · intro hnone
    obtain ⟨h1, h2⟩ := foldl_totals_no_over home_team market.outcomes
      (fun o ho => (hnone o ho).1) _
    refine ⟨h1, h2, ?_⟩
    -- no Under outcome either: under price also stays none
    have : ∀ (outs : List BkOutcome),
        (∀ o ∈ outs, o.name ≠ "Over".data ∧ o.name ≠ "Under".data) →
        ∀ s : Snapshot, outs.foldl (applyOutcome ("totals".data) home_team) s = s := by
      intro outs houts
      induction outs with
      | nil => intro s; rfl
      | cons o outs ih =>
        intro s
        rw [List.foldl_cons,
          applyOutcome_totals_other home_team s o (houts o (by simp)).1
            (houts o (by simp)).2,
          ih (fun u hu => houts u (by simp [hu]))]
    rw [this market.outcomes hnone _]
  · exact (foldl_totals_fields home_team market.outcomes _).1
  · exact (foldl_totals_fields home_team market.outcomes _).2.1
  · exact (foldl_totals_fields home_team market.outcomes _).2.2.1
  · exact (foldl_totals_fields home_team market.outcomes _).2.2.2
  · unfold extract_odds_snapshot
    dsimp only
    rw [hper]
    exact congrArg some (foldl_totals_filter home_team market.outcomes _)

/- ### Concrete inputs for the extractor theorems -/

/-- A spreads market whose lines sum to 13 (far outside the 0.5 tolerance). -/
def wMarketC7 : BkMarket :=
  { key := "spreads".data,
    outcomes := [
      { name := "H".data, price := some (-110), point := some 3 },
      { name := "A".data, price := some (-110), point := some 10 } ] }

/-- The snapshot the extractor produces for `wMarketC7`. -/
def wSnapC7 : Snapshot :=
  { time := 0, game_id := 0, external_id := [], bookmaker := [],
    market_type := "spreads".data, period := "full".data,
    home_line := some 3, away_line := some 10, total_line := none,
    home_price := some (-110), away_price := some (-110),
    over_price := none, under_price := none }

/-- Witness for C7: a recognized spreads market violating the 0.5 spread-sum
tolerance is still extracted (the sanity check only logs). -/
theorem extract_odds_snapshot_spec_witness :
    (extract_odds_snapshot 0 0 [] [] wMarketC7 ("H".data) ≠ none) ∧
    ((extract_odds_snapshot 0 0 [] [] wMarketC7 ("H".data)).isSome
      = (extract_odds_snapshot 0 0 [] []
          { key := wMarketC7.key, outcomes := [] } ("H".data)).isSome) ∧
    extract_odds_snapshot 0 0 [] [] wMarketC7 ("H".data) = some wSnapC7 ∧
    spreadWarning ("spreads".data) wSnapC7 ∧
    (wMarketC7.key, wSnapC7.market_type, wSnapC7.period) ∈ [
      ("spreads".data, "spreads".data, "full".data),
      ("totals".data, "totals".data, "full".data),
      ("spreads_h1".data, "spreads".data, "1h".data),
      ("totals_h1".data, "totals".data, "1h".data),
      ("spreads_h2".data, "spreads".data, "2h".data),
      ("totals_h2".data, "totals".data, "2h".data)] := by
  have h := extract_odds_snapshot_spec 0 0 [] [] wMarketC7 ("H".data)
  have hval : extract_odds_snapshot 0 0 [] [] wMarketC7 ("H".data) = some wSnapC7 := by
    decide
  refine ⟨?_, (h.2.2 []).symm, hval, ?_, h.2.1 wSnapC7 hval⟩
  · intro hnone
    exact h.1.mp hnone (Or.inl rfl)
  · exact ⟨rfl, 3, 10, rfl, rfl, by norm_num⟩

/-- A totals market with an Under outcome, no Over outcome, and an ignored
extra outcome name. -/
def wMarketC10 : BkMarket :=
  { key := "totals".data,
    outcomes := [
      { name := "Under".data, price := some 105, point := some (145/2) },
      { name := "Middle".data, price := some 100, point := some 3 } ] }

/-- The snapshot the extractor produces for `wMarketC10`. -/
def wSnapC10 : Snapshot :=
  { time := 7, game_id := 1, external_id := [], bookmaker := [],
    market_type := "totals".data, period := "full".data,
    home_line := none, away_line := none, total_line := none,
    home_price := none, away_price := none, over_price := none,
    under_price := some 105 }

/-- Witness for C10: an Under-only totals market yields a snapshot with no
total line, no over price, and an under price. -/
theorem extract_totals_outcomes_witness :
    extract_odds_snapshot 7 1 [] [] wMarketC10 [] ≠ none ∧
    (∀ s, extract_odds_snapshot 7 1 [] [] wMarketC10 [] = some s →
      s.total_line = none ∧ s.over_price = none ∧ s.under_price = some 105 ∧
      s.home_line = none ∧ s.away_line = none) := by
  obtain ⟨s, hs, hnoover, _, hhl, hal, _, _, _⟩ :=
    extract_totals_outcomes 7 1 [] [] wMarketC10 [] (Or.inl rfl)
  obtain ⟨h1, h2⟩ := hnoover (by decide)
  have hup : s.under_price = some 105 := by
    have hv : extract_odds_snapshot 7 1 [] [] wMarketC10 [] = some wSnapC10 := by
      decide
    rw [hv] at hs
    cases hs
    rfl
  constructor
  · intro hnone
    rw [hnone] at hs
    cases hs
  · intro u hu
    rw [hs] at hu
    cases hu
    exact ⟨h1, h2, hup, hhl, hal⟩

/- ### Event freshness tracker (`EventTracker::filter_new_events`) -/

/-- Association-list model of the tracker's `HashMap<String, DateTime<Utc>>`;
timestamps are seconds as integers. -/
def lookupT : List (List Char × Int) → List Char → Option Int
  | [], _ => none
  | (k', v) :: rest, k => if k' = k then some v else lookupT rest k

/-- `HashMap::insert` (replace or append). -/
def insertT : List (List Char × Int) → List Char → Int → List (List Char × Int)
  | [], k, v => [(k, v)]
  | (k', v') :: rest, k, v =>
    if k' = k then (k, v) :: rest else (k', v') :: insertT rest k v

/-- The per-id freshness test: new when absent, or when
`now.signed_duration_since(last_seen) > 300s`. -/
def isNewT (cache : List (List Char × Int)) (now : Int) (id : List Char) : Bool :=
  match lookupT cache id with
  | none => true
  | some last => decide (now - last > 300)

/-- The `for id in event_ids` loop of `filter_new_events`: returns the
collected `new_ids` and the updated cache.  Only ids classified new are
stamped (`cache.insert` sits inside `if is_new`). -/
def filterNewAux (now : Int) : List (List Char) → List (List Char × Int) →
    (List (List Char) × List (List Char × Int))
  | [], cache => ([], cache)
  | id :: rest, cache =>
    if isNewT cache now id then
      let r := filterNewAux now rest (insertT cache id now)
      (id :: r.1, r.2)
    else
      filterNewAux now rest cache

/-- Model of `EventTracker::filter_new_events`: returns
`(new_ids, all_ids, updated cache)` where `all_ids = event_ids.to_vec()`. -/
def filter_new_events (cache : List (List Char × Int)) (now : Int)
    (event_ids : List (List Char)) :
    (List (List Char) × List (List Char) × List (List Char × Int)) :=
  ((filterNewAux now event_ids cache).1, event_ids,
    (filterNewAux now event_ids cache).2)

theorem lookupT_insertT_self (cache : List (List Char × Int)) (k : List Char)
    (v : Int) : lookupT (insertT cache k v) k = some v := by
  induction cache with
  | nil => simp [insertT, lookupT]
  | cons p rest ih =>
    obtain ⟨k', v'⟩ := p
    unfold insertT
    by_cases h : k' = k
    · rw [if_pos h]; simp [lookupT]
    · rw [if_neg h]
      unfold lookupT
      rw [if_neg h]
      exact ih

theorem lookupT_insertT_other (cache : List (List Char × Int)) (k x : List Char)
    (v : Int) (h : x ≠ k) : lookupT (insertT cache k v) x = lookupT cache x := by
  induction cache with
  | nil =>
    show (if k = x then some v else lookupT [] x) = lookupT [] x
    rw [if_neg (fun hh => h hh.symm)]
  | cons p rest ih =>
    obtain ⟨k', v'⟩ := p
    unfold insertT
    by_cases hk : k' = k
    · rw [if_pos hk]
      subst hk
      unfold lookupT
      rw [if_neg (fun hh => h hh.symm), if_neg (fun hh => h hh.symm)]
    · rw [if_neg hk]
      unfold lookupT
      by_cases hx : k' = x
      · rw [if_pos hx, if_pos hx]
      · rw [if_neg hx, if_neg hx]
        exact ih

theorem isNewT_insertT_other (cache : List (List Char × Int)) (now : Int)
    (k x : List Char) (v : Int) (h : x ≠ k) :
    isNewT (insertT cache k v) now x = isNewT cache now x := by
  unfold isNewT
  rw [lookupT_insertT_other cache k x v h]

/-- Membership in `new_ids`: an id is collected iff it occurs in the input and
is fresh with respect to the cache state at the start of the call. -/
theorem filterNewAux_mem (now : Int) (ids : List (List Char)) :
    ∀ cache x, x ∈ (filterNewAux now ids cache).1 ↔
      x ∈ ids ∧ isNewT cache now x := by
  induction ids with
  | nil => intro cache x; simp [filterNewAux]
  | cons a rest ih =>
    intro cache x
    unfold filterNewAux
    by_cases ha : isNewT cache now a
    · rw [if_pos ha]
      dsimp only
      by_cases hx : x = a
      · subst hx
        simp [ha]
      · have hIH := ih (insertT cache a now) x
        rw [isNewT_insertT_other cache now a x now hx] at hIH
        simp only [List.mem_cons]
        constructor
        · intro hmem
          rcases hmem with h | h
          · exact absurd h hx
          · have hres := hIH.mp h
            exact ⟨Or.inr hres.1, hres.2⟩
        · intro ⟨hmem, hnew⟩
          rcases hmem with h | h
          · exact absurd h hx
          · exact Or.inr (hIH.mpr ⟨h, hnew⟩)
    · rw [if_neg ha]
      rw [ih cache x]
      constructor
      · intro ⟨hmem, hnew⟩
        exact ⟨List.mem_cons_of_mem _ hmem, hnew⟩
      · intro ⟨hmem, hnew⟩
        rcases List.mem_cons.mp hmem with h | h
        · subst h; exact absurd hnew ha
        · exact ⟨h, hnew⟩

/-- Final cache state: ids collected as new are stamped `now`; every other key
keeps its previous timestamp. -/
theorem filterNewAux_stamp (now : Int) (ids : List (List Char)) :
    ∀ cache x, lookupT (filterNewAux now ids cache).2 x
      = if x ∈ (filterNewAux now ids cache).1 then some now
        else lookupT cache x := by
  induction ids with
  | nil => intro cache x; simp [filterNewAux]
  | cons a rest ih =>
    intro cache x
    unfold filterNewAux
    by_cases ha : isNewT cache now a
    · rw [if_pos ha]
      dsimp only
      by_cases hx : x = a
      · subst hx
        rw [if_pos (by simp)]
        rw [ih (insertT cache x now) x]
        by_cases hmem : x ∈ (filterNewAux now rest (insertT cache x now)).1
        · rw [if_pos hmem]
        · rw [if_neg hmem, lookupT_insertT_self]
      · rw [ih (insertT cache a now) x,
          lookupT_insertT_other cache a x now hx]
        by_cases hmem : x ∈ (filterNewAux now rest (insertT cache a now)).1
        · rw [if_pos hmem, if_pos (by simp [hmem])]
        · rw [if_neg hmem, if_neg (by simp [hmem, hx])]
    · rw [if_neg ha]
      exact ih cache x

/-- C5 (amended): `filter_new_events` classifies an id as new iff it is absent
or last seen more than 300 seconds ago, returns the input list unchanged as
`all_ids`, stamps the ids classified new with the current time, and leaves
every other entry untouched (source lines 242-266). -/
theorem filter_new_events_spec (cache : List (List Char × Int)) (now : Int)
    (ids : List (List Char)) :
    (filter_new_events cache now ids).2.1 = ids ∧
    (∀ x, x ∈ (filter_new_events cache now ids).1 ↔
      x ∈ ids ∧ (lookupT cache x = none ∨
        ∃ last, lookupT cache x = some last ∧ now - last > 300)) ∧
    (∀ x, lookupT (filter_new_events cache now ids).2.2 x
      = if x ∈ (filter_new_events cache now ids).1 then some now
        else lookupT cache x) := by
  refine ⟨rfl, ?_, ?_⟩
  · intro x
    rw [show (filter_new_events cache now ids).1 = (filterNewAux now ids cache).1
        from rfl,
      filterNewAux_mem now ids cache x]
    have : isNewT cache now x = true ↔ (lookupT cache x = none ∨
        ∃ last, lookupT cache x = some last ∧ now - last > 300) := by
      unfold isNewT
      cases h : lookupT cache x with
      | none => simp
      | some last => simp [h]
    rw [this]
  · intro x
    exact filterNewAux_stamp now ids cache x

/-- Witness for C5: applying the specification at a concrete tracker state. -/
theorem filter_new_events_spec_witness :
    (filter_new_events [("a".data, 0)] 400 ["a".data, "b".data]).2.1
      = ["a".data, "b".data] ∧
    ("a".data ∈ (filter_new_events [("a".data, 0)] 400 ["a".data, "b".data]).1
      ↔ "a".data ∈ ["a".data, "b".data] ∧ (lookupT [("a".data, 0)] ("a".data) = none ∨
        ∃ last, lookupT [("a".data, 0)] ("a".data) = some last ∧ (400:Int) - last > 300)) := by
  have h := filter_new_events_spec [("a".data, 0)] 400 ["a".data, "b".data]
  exact ⟨h.1, h.2.1 ("a".data)⟩

/-- Counterexample for C5 as stated: it is not the case that every id passed
in is stamped with the current time; an id seen 10 seconds ago (inside the
300-second window) keeps its old timestamp. -/
theorem filter_new_events_stamp_all_false :
    ¬ (∀ (cache : List (List Char × Int)) (now : Int) (ids : List (List Char)),
        ∀ x ∈ ids,
          lookupT (filter_new_events cache now ids).2.2 x = some now) := by
  intro h
  have hx := h [("a".data, 0)] 10 ["a".data] ("a".data) (by simp)
  have hval : lookupT (filter_new_events [("a".data, 0)] 10 ["a".data]).2.2
      ("a".data) = some 0 := by decide
  rw [hval] at hx
  exact absurd hx (by decide)

/- ### Fetch retry policy (`fetch_events`, `fetch_event_odds`,
`fetch_event_h1_odds`, `fetch_event_h2_odds`, `fetch_event_ids`) -/

/-- An HTTP response: status code plus an optional parsed Retry-After value. -/
structure HttpResp where
  status : Nat
  retryAfter : Option Nat
deriving DecidableEq

/-- A network attempt either yields a response or a transport error. -/
inductive NetResult where
  | ok (r : HttpResp)
  | netErr
deriving DecidableEq

/-- The sequence of results the network would return for attempt 0, 1, ... -/
def Oracle : Type := Nat → NetResult

/-- `reqwest::StatusCode::is_success` (2xx). -/
def isSuccess (r : HttpResp) : Bool := decide (200 ≤ r.status ∧ r.status ≤ 299)

/-- The retry condition `status == 429 || status.is_server_error()` (5xx). -/
def isRetryableStatus (r : HttpResp) : Bool :=
  decide (r.status = 429 ∨ (500 ≤ r.status ∧ r.status ≤ 599))

inductive FetchOutcome where
  | success
  | hardError
  | unavailable
deriving DecidableEq

/-- What a fetch call did: how many requests it issued, which backoff delays
it slept, and how it ended. -/
structure FetchTrace where
  requests : Nat
  delays : List Nat
  outcome : FetchOutcome
deriving DecidableEq

/-- Backoff after failed request number `k` (`attempt` has just been
incremented to `k+1`): `2^attempt` seconds, overridden by Retry-After. -/
def backoffDelay (k : Nat) (r : HttpResp) : Nat := r.retryAfter.getD (2 ^ (k + 1))

/-- The shared retry loop shape of `fetch_events` / `fetch_event_odds` /
`fetch_event_h1_odds`: request `k` is issued, success breaks, 429/5xx and
transport errors retry until `attempt >= max_attempts` (here `fuel` counts the
remaining attempts), other statuses stop with `nonr`.  Exhaustion yields
`exh`. -/
def retryAux (oracle : Oracle) (exh nonr : FetchOutcome) : Nat → Nat → FetchTrace
  | _, 0 => { requests := 0, delays := [], outcome := exh }
  | k, fuel + 1 =>
    match oracle k with
    | .ok r =>
      if isSuccess r then { requests := k + 1, delays := [], outcome := .success }
      else if isRetryableStatus r then
        if fuel = 0 then { requests := k + 1, delays := [], outcome := exh }
        else
          let t := retryAux oracle exh nonr (k + 1) fuel
          { requests := t.requests, delays := backoffDelay k r :: t.delays,
            outcome := t.outcome }
      else { requests := k + 1, delays := [], outcome := nonr }
    | .netErr =>
      if fuel = 0 then { requests := k + 1, delays := [], outcome := exh }
      else
        let t := retryAux oracle exh nonr (k + 1) fuel
        { requests := t.requests, delays := 2 ^ (k + 1) :: t.delays,
          outcome := t.outcome }

/-- `fetch_events`: `max_attempts = 5`; exhaustion and non-retryable statuses
are hard errors. -/
def fetch_events_model (oracle : Oracle) : FetchTrace :=
  retryAux oracle .hardError .hardError 0 5

/-- `fetch_event_odds`: `max_attempts = 3`; exhaustion and non-retryable
statuses degrade to `Ok(None)`. -/
def fetch_event_odds_model (oracle : Oracle) : FetchTrace :=
  retryAux oracle .unavailable .unavailable 0 3

/-- `fetch_event_h1_odds`: `max_attempts = 4`; exhaustion and non-retryable
statuses degrade to `Ok(None)`. -/
def fetch_event_h1_odds_model (oracle : Oracle) : FetchTrace :=
  retryAux oracle .unavailable .unavailable 0 4

/-- `fetch_event_ids`: a single request with no retry loop; any failure is a
hard error (`?` on the transport error, `Err` on a non-success status). -/
def fetch_event_ids_model (oracle : Oracle) : FetchTrace :=
  match oracle 0 with
  | .ok r =>
    if isSuccess r then { requests := 1, delays := [], outcome := .success }
    else { requests := 1, delays := [], outcome := .hardError }
  | .netErr => { requests := 1, delays := [], outcome := .hardError }

/-- `fetch_event_h2_odds`: a single request with no retry loop; a transport
error propagates (`?`), a non-success status degrades to `Ok(None)`. -/
def fetch_event_h2_odds_model (oracle : Oracle) : FetchTrace :=
  match oracle 0 with
  | .ok r =>
    if isSuccess r then { requests := 1, delays := [], outcome := .success }
    else { requests := 1, delays := [], outcome := .unavailable }
  | .netErr => { requests := 1, delays := [], outcome := .hardError }

theorem retryAux_requests_le (oracle : Oracle) (e n : FetchOutcome) :
    ∀ fuel k, (retryAux oracle e n k fuel).requests ≤ k + fuel := by
  intro fuel
  induction fuel with
  | zero => intro k; simp [retryAux]
  | succ fuel ih =>
    intro k
    unfold retryAux
    cases oracle k with
    | ok r =>
      dsimp only
      by_cases hs : isSuccess r
      · rw [if_pos hs]; dsimp only; omega
      rw [if_neg hs]
      by_cases hr : isRetryableStatus r
      · rw [if_pos hr]
        by_cases hf : fuel = 0
        · rw [if_pos hf]; dsimp only; omega
        · rw [if_neg hf]
          dsimp only
          have := ih (k + 1)
          omega
      · rw [if_neg hr]; dsimp only; omega
    | netErr =>
      dsimp only
      by_cases hf : fuel = 0
      · rw [if_pos hf]; dsimp only; omega
      · rw [if_neg hf]
        dsimp only
        have := ih (k + 1)
        omega

/-- A retryable first response followed by a success yields exactly two
requests with the documented backoff in between. -/
theorem retryAux_two (oracle : Oracle) (e n : FetchOutcome) (f : Nat)
    (r r' : HttpResp) (h0 : oracle 0 = .ok r) (hr : isRetryableStatus r = true)
    (hs : isSuccess r = false) (h1 : oracle 1 = .ok r')
    (hs' : isSuccess r' = true) :
    retryAux oracle e n 0 (f + 2)
      = { requests := 2, delays := [backoffDelay 0 r], outcome := .success } := by
  show retryAux oracle e n 0 ((f + 1) + 1) = _
  unfold retryAux
  rw [h0]
  dsimp only
  rw [hs]
  simp only [Bool.false_eq_true, if_false, hr, if_true]
  rw [if_neg (by omega : ¬ f + 1 = 0)]
  have hzero : (0 : Nat) + 1 = 1 := rfl
  rw [hzero]
  unfold retryAux
  rw [h1]
  dsimp only
  rw [hs']
  simp only [if_true]

/-- Every recorded delay follows the `2^attempt`-or-Retry-After rule. -/
theorem retryAux_delays (oracle : Oracle) (e n : FetchOutcome) :
    ∀ fuel k i d, ((retryAux oracle e n k fuel).delays).get? i = some d →
      d = match oracle (k + i) with
          | .ok r => r.retryAfter.getD (2 ^ (k + i + 1))
          | .netErr => 2 ^ (k + i + 1) := by
  intro fuel
  induction fuel with
  | zero => intro k i d hd; simp [retryAux] at hd
  | succ fuel ih =>
    intro k i d hd
    unfold retryAux at hd
    cases hk : oracle k with
    | ok r =>
      rw [hk] at hd
      dsimp only at hd
      by_cases hs : isSuccess r
      · rw [if_pos hs] at hd; simp at hd
      rw [if_neg hs] at hd
      by_cases hr : isRetryableStatus r
      · rw [if_pos hr] at hd
        by_cases hf : fuel = 0
        · rw [if_pos hf] at hd; simp at hd
        rw [if_neg hf] at hd
        dsimp only at hd
        cases i with
        | zero =>
          rw [List.get?_cons_zero] at hd
          cases hd
          rw [show k + 0 = k from rfl, hk]
          rfl
        | succ i =>
          rw [List.get?_cons_succ] at hd
          have hrec := ih (k + 1) i d hd
          rw [show k + 1 + i = k + (i + 1) from by omega] at hrec
          exact hrec
      · rw [if_neg hr] at hd; simp at hd
    | netErr =>
      rw [hk] at hd
      dsimp only at hd
      by_cases hf : fuel = 0
      · rw [if_pos hf] at hd; simp at hd
      rw [if_neg hf] at hd
      dsimp only at hd
      cases i with
      | zero =>
        rw [List.get?_cons_zero] at hd
        cases hd
        rw [show k + 0 = k from rfl, hk]
      | succ i =>
        rw [List.get?_cons_succ] at hd
        have hrec := ih (k + 1) i d hd
        rw [show k + 1 + i = k + (i + 1) from by omega] at hrec
        exact hrec

/-- When every response is a retryable failure, the loop runs to its exact
attempt ceiling and ends with the exhaustion outcome. -/
theorem retryAux_exhaust (oracle : Oracle) (e n : FetchOutcome)
    (hall : ∀ k r, oracle k = .ok r →
      isRetryableStatus r = true ∧ isSuccess r = false) :
    ∀ fuel k, (retryAux oracle e n k (fuel + 1)).requests = k + fuel + 1 ∧
      (retryAux oracle e n k (fuel + 1)).outcome = e := by
  intro fuel
  induction fuel with
  | zero =>
    intro k
    unfold retryAux
    cases hk : oracle k with
    | ok r =>
      obtain ⟨hr, hs⟩ := hall k r hk
      dsimp only
      rw [hs]
      simp only [Bool.false_eq_true, if_false, hr, if_true, if_pos rfl]
      exact ⟨trivial, trivial⟩
    | netErr =>
      dsimp only
      rw [if_pos rfl]
      exact ⟨rfl, rfl⟩
  | succ fuel ih =>
    intro k
    unfold retryAux
    cases hk : oracle k with
    | ok r =>
      obtain ⟨hr, hs⟩ := hall k r hk
      dsimp only
      rw [hs]
      simp only [Bool.false_eq_true, if_false, hr, if_true]
      rw [if_neg (by omega : ¬ fuel + 1 = 0)]
      dsimp only
      have hrec := ih (k + 1)
      exact ⟨by omega, hrec.2⟩
    | netErr =>
      dsimp only
      rw [if_neg (by omega : ¬ fuel + 1 = 0)]
      dsimp only
      have hrec := ih (k + 1)
      exact ⟨by omega, hrec.2⟩

/-- C6 (amended): per-endpoint retry behavior.  The retrying endpoints are the
full-odds list (`fetch_events`, ceiling 5, the most lenient), the per-event
half-market endpoint `fetch_event_h1_odds` (ceiling 4) and the per-event
full-market endpoint `fetch_event_odds` (ceiling 3); each retries on 429/5xx
with `2^attempt`-second backoff overridden by Retry-After.  The event-id list
endpoint `fetch_event_ids` and the per-event `fetch_event_h2_odds` endpoint
issue exactly one request and never retry. -/
theorem fetch_retry_policy (oracle : Oracle) :
    (fetch_events_model oracle).requests ≤ 5 ∧
    (fetch_event_h1_odds_model oracle).requests ≤ 4 ∧
    (fetch_event_odds_model oracle).requests ≤ 3 ∧
    (fetch_event_ids_model oracle).requests = 1 ∧
    (fetch_event_h2_odds_model oracle).requests = 1 ∧
    (∀ r r', oracle 0 = .ok r → isRetryableStatus r = true →
      isSuccess r = false → oracle 1 = .ok r' → isSuccess r' = true →
      fetch_events_model oracle
        = { requests := 2, delays := [backoffDelay 0 r], outcome := .success } ∧
      fetch_event_h1_odds_model oracle
        = { requests := 2, delays := [backoffDelay 0 r], outcome := .success } ∧
      fetch_event_odds_model oracle
        = { requests := 2, delays := [backoffDelay 0 r], outcome := .success }) ∧
    (∀ i d, ((fetch_events_model oracle).delays).get? i = some d →
      d = match oracle i with
          | .ok r => r.retryAfter.getD (2 ^ (i + 1))
          | .netErr => 2 ^ (i + 1)) ∧
    ((∀ k r, oracle k = .ok r →
        isRetryableStatus r = true ∧ isSuccess r = false) →
      (fetch_events_model oracle).requests = 5 ∧
      (fetch_events_model oracle).outcome = .hardError ∧
      (fetch_event_h1_odds_model oracle).requests = 4 ∧
      (fetch_event_h1_odds_model oracle).outcome = .unavailable ∧
      (fetch_event_odds_model oracle).requests = 3 ∧
      (fetch_event_odds_model oracle).outcome = .unavailable ∧
      (fetch_event_ids_model oracle).outcome = .hardError ∧
      (fetch_event_h2_odds_model oracle).outcome ≠ .success) := by
  refine ⟨?_, ?_, ?_, ?_, ?_, ?_, ?_, ?_⟩
  · exact retryAux_requests_le oracle .hardError .hardError 5 0
  · exact retryAux_requests_le oracle .unavailable .unavailable 4 0
  · exact retryAux_requests_le oracle .unavailable .unavailable 3 0
  · unfold fetch_event_ids_model
    cases oracle 0 with
    | ok r => dsimp only; by_cases hs : isSuccess r
              · rw [if_pos hs]
              · rw [if_neg hs]
    | netErr => rfl
  · unfold fetch_event_h2_odds_model
    cases oracle 0 with
    | ok r => dsimp only; by_cases hs : isSuccess r
              · rw [if_pos hs]
              · rw [if_neg hs]
    | netErr => rfl
  · intro r r' h0 hr hs h1 hs'
    exact ⟨retryAux_two oracle _ _ 3 r r' h0 hr hs h1 hs',
      retryAux_two oracle _ _ 2 r r' h0 hr hs h1 hs',
      retryAux_two oracle _ _ 1 r r' h0 hr hs h1 hs'⟩
  · intro i d hd
    have := retryAux_delays oracle .hardError .hardError 5 0 i d hd
    rw [show (0 : Nat) + i = i from by omega] at this
    exact this
  · intro hall
    obtain ⟨e1, e2⟩ := retryAux_exhaust oracle .hardError .hardError hall 4 0
    obtain ⟨f1, f2⟩ := retryAux_exhaust oracle .unavailable .unavailable hall 3 0
    obtain ⟨g1, g2⟩ := retryAux_exhaust oracle .unavailable .unavailable hall 2 0
    refine ⟨e1, e2, f1, f2, g1, g2, ?_, ?_⟩
    · unfold fetch_event_ids_model
      cases hk : oracle 0 with
      | ok r =>
        obtain ⟨hr, hs⟩ := hall 0 r hk
        dsimp only
        rw [hs]
        simp
      | netErr => rfl
    · unfold fetch_event_h2_odds_model
      cases hk : oracle 0 with
      | ok r =>
        obtain ⟨hr, hs⟩ := hall 0 r hk
        dsimp only
        rw [hs]
        simp
      | netErr => simp

/-- The oracle that answers 429 first and 200 afterwards. -/
def oracle429then200 : Oracle :=
  fun k => if k = 0 then .ok { status := 429, retryAfter := none }
    else .ok { status := 200, retryAfter := none }

/-- Counterexample for C6 as stated: not every fetch endpoint retries on 429.
`fetch_event_ids` (the event-list endpoint, which the claim calls the most
lenient) gives up after a single request even though the next attempt would
have succeeded, and `fetch_event_h2_odds` likewise never retries. -/
theorem fetch_retry_claim_false :
    ¬ (∀ oracle : Oracle,
        (∃ r, oracle 0 = .ok r ∧ isRetryableStatus r = true) →
        2 ≤ (fetch_event_ids_model oracle).requests ∧
        2 ≤ (fetch_event_h2_odds_model oracle).requests) := by
  intro hclaim
  have h := hclaim oracle429then200
    ⟨{ status := 429, retryAfter := none }, rfl, by decide⟩
  have h1 : (fetch_event_ids_model oracle429then200).requests = 1 := rfl
  omega

/-- Witness for C6: the amended policy applied to the 429-then-200 oracle. -/
theorem fetch_retry_policy_witness :
    fetch_events_model oracle429then200
      = { requests := 2, delays := [2], outcome := .success } ∧
    (fetch_events_model oracle429then200).requests ≤ 5 ∧
    (fetch_event_ids_model oracle429then200).requests = 1 := by
  have h := fetch_retry_policy oracle429then200
  refine ⟨?_, h.1, h.2.2.2.1⟩
  have := (h.2.2.2.2.2.1 { status := 429, retryAfter := none }
    { status := 200, retryAfter := none } rfl (by decide) (by decide) rfl
    (by decide)).1
  rw [this]
  rfl

/- ### Candidate generation (`team_name_candidates`, `expand_prefix_abbrev`) -/

/-- Model of `expand_prefix_abbrev`: expands a leading directional/qualifier
abbreviation when at least one more token follows. -/
def expand_prefix_abbrev (s : List Char) : Option (List Char) :=
  match words s with
  | [] => none
  | first :: rest =>
    let expanded : Option (List Char) :=
      if first = "E".data ∨ first = "E.".data then some ("Eastern".data)
      else if first = "W".data ∨ first = "W.".data then some ("Western".data)
      else if first = "N".data ∨ first = "N.".data then some ("Northern".data)
      else if first = "S".data ∨ first = "S.".data then some ("Southern".data)
      else if first = "C".data ∨ first = "C.".data then some ("Central".data)
      else if first = "Mt".data ∨ first = "Mt.".data then some ("Mount".data)
      else none
    match expanded with
    | none => none
    | some e => if rest = [] then none else some (e ++ ' ' :: joinWords rest)

/-- Model of `str::replace(" State", " St.")`: left-to-right, non-overlapping. -/
def replaceStateSt (s : List Char) : List Char :=
  if h : (" State".data) <+: s then
    (" St.".data) ++ replaceStateSt (s.drop 6)
  else
    match s with
    | [] => []
    | c :: t => c :: replaceStateSt t
termination_by s.length
decreasing_by
  · have hle : (" State".data).length ≤ s.length := h.length_le
    have h6 : (" State".data).length = 6 := rfl
    rw [List.length_drop]
    omega
  · simp

/-- The `add_variants` closure: push the trimmed base, then its prefix
expansion if any. -/
def add_variants (s : List Char) (out : List (List Char)) : List (List Char) :=
  if trim s = [] then out
  else
    match expand_prefix_abbrev s with
    | some e => (out ++ [trim s]) ++ [e]
    | none => out ++ [trim s]

/-- The `retain`-with-`HashSet` deduplication: keep the first occurrence of
each lowercase form. -/
def dedupCIAux (seen : List (List Char)) : List (List Char) → List (List Char)
  | [] => []
  | s :: rest =>
    if s.map Char.toLower ∈ seen then dedupCIAux seen rest
    else s :: dedupCIAux (s.map Char.toLower :: seen) rest

/-- Model of `team_name_candidates`. -/
def team_name_candidates (team_name : List Char) : List (List Char) :=
  let raw := trim team_name
  let out0 : List (List Char) := if raw = [] then [] else [raw]
  let cleaned := normalize_lookup_name raw
  let out1 :=
    if cleaned = [] then out0
    else
      (strip_mascot_suffixes cleaned).foldl (fun o st => add_variants st o)
        (add_variants cleaned out0)
  let state_abbrev := replaceStateSt cleaned
  let out2 :=
    if state_abbrev ≠ [] ∧ state_abbrev ≠ cleaned then add_variants state_abbrev out1
    else out1
  dedupCIAux [] out2

/- ### Relational-store model (teams, aliases, ratings, audit, games) -/

structure TeamRow where
  id : Nat
  canonical_name : List Char
deriving DecidableEq

structure AliasRow where
  team_id : Nat
  aliasText : List Char
  source : List Char
deriving DecidableEq

structure AuditRec where
  input_name : List Char
  resolved_name : Option (List Char)
  source : List Char
  context : List Char
  has_ratings : Bool
deriving DecidableEq

structure GameRow where
  id : Nat
  external_id : List Char
  home_team_id : Nat
  away_team_id : Nat
  commence_time : Int
  status : List Char
deriving DecidableEq

/-- The relational state the service reads and writes.  `ratings` is the set
of team ids having a `team_ratings` row; `nextId` supplies the fresh
`Uuid::new_v4` values (ids are modelled as naturals). -/
structure Db where
  teams : List TeamRow
  ratings : List Nat
  aliases : List AliasRow
  audit : List AuditRec
  games : List GameRow
  nextId : Nat
deriving DecidableEq

/-- Configuration plus the store-side `resolve_team_name` SQL function, which
is not part of this repository (spec section 6 assumes it as an external
canonical-form lookup); it is therefore a parameter of the model. -/
structure ResolveCtx where
  strict_team_matching : Bool
  resolveTeamName : List Char → Option (List Char)

inductive IngestErr where
  | unresolvedTeam (name : List Char)
  | sameTeamIds
deriving DecidableEq

/-- `resolve_team_strict`: teams whose canonical name equals
`resolve_team_name(input)`, LIMIT 1, with a ratings-existence flag. -/
def resolve_team_strict (ctx : ResolveCtx) (db : Db) (input : List Char) :
    Option (Nat × List Char × Bool) :=
  match db.teams.find? (fun t => ctx.resolveTeamName input = some t.canonical_name) with
  | some t => some (t.id, t.canonical_name, decide (t.id ∈ db.ratings))
  | none => none

/-- `regexp_replace(lower(x), '[^a-z0-9]+', '', 'g')`. -/
def fuzzyKey (s : List Char) : List Char :=
  (s.map Char.toLower).filter
    (fun c => decide (('a' ≤ c ∧ c ≤ 'z') ∨ ('0' ≤ c ∧ c ≤ '9')))

/-- The rows the fuzzy query joins: canonical name or any alias matches after
punctuation/spacing stripping. -/
def fuzzyMatches (db : Db) (input : List Char) : List TeamRow :=
  db.teams.filter (fun t =>
    decide (fuzzyKey t.canonical_name = fuzzyKey input) ||
    db.aliases.any (fun a =>
      decide (a.team_id = t.id) && decide (fuzzyKey a.aliasText = fuzzyKey input)))

/-- Codepoint-wise lexicographic order, modelling the SQL `ORDER BY
t.canonical_name`. -/
def lexLe : List Char → List Char → Bool
  | [], _ => true
  | _ :: _, [] => false
  | c :: cs, d :: ds => if c = d then lexLe cs ds else decide (c < d)

/-- `ORDER BY has_ratings DESC, t.canonical_name LIMIT 1`. -/
def pickFuzzy (db : Db) : List TeamRow → Option TeamRow
  | [] => none
  | t :: ts =>
    match pickFuzzy db ts with
    | none => some t
    | some u =>
      if decide (t.id ∈ db.ratings) = decide (u.id ∈ db.ratings) then
        if lexLe t.canonical_name u.canonical_name then some t else some u
      else if decide (t.id ∈ db.ratings) then some t else some u

/-- `resolve_team_fuzzy`. -/
def resolve_team_fuzzy (db : Db) (input : List Char) :
    Option (Nat × List Char × Bool) :=
  match pickFuzzy db (fuzzyMatches db input) with
  | some t => some (t.id, t.canonical_name, decide (t.id ∈ db.ratings))
  | none => none

/-- `INSERT INTO team_aliases ... ON CONFLICT (alias, source) DO NOTHING`. -/
def insertAlias (db : Db) (id : Nat) (text : List Char) : Db :=
  if db.aliases.any (fun a =>
      decide (a.aliasText = text) && decide (a.source = "the_odds_api".data)) then db
  else { db with aliases := db.aliases ++
    [{ team_id := id, aliasText := text, source := "the_odds_api".data }] }

/-- Attach the raw name as an alias when it differs case-insensitively from
the canonical name. -/
def attachAliasIfDiff (db : Db) (team_name : List Char) (id : Nat)
    (canonical : List Char) : Db :=
  if team_name.map Char.toLower = canonical.map Char.toLower then db
  else insertAlias db id team_name

/-- `normalize_team_name` delegates to `normalize_lookup_name`. -/
def normalize_team_name (name : List Char) : List Char :=
  normalize_lookup_name name

def mkAudit (input : List Char) (resolved : Option (List Char))
    (context : List Char) (hasRatings : Bool) : AuditRec :=
  { input_name := input, resolved_name := resolved,
    source := "the_odds_api".data, context := context,
    has_ratings := hasRatings }

/-- The `for cand in candidates` loop of `get_or_create_team`: a rated strict
match returns immediately; the first unrated strict match is remembered. -/
inductive CandResult where
  | foundRated (id : Nat) (canonical : List Char)
  | fallthrough (best : Option (Nat × List Char))
deriving DecidableEq

def candLoop (ctx : ResolveCtx) (db : Db) :
    List (List Char) → Option (Nat × List Char) → CandResult
  | [], best => .fallthrough best
  | c :: rest, best =>
    match resolve_team_strict ctx db c with
    | some (id, canonical, true) => .foundRated id canonical
    | some (id, canonical, false) =>
      candLoop ctx db rest (if best.isSome then best else some (id, canonical))
    | none => candLoop ctx db rest best

/-- The continuation after the candidate loop and the fuzzy step: use the best
unrated match; otherwise audit-and-fail in strict mode, or create the team in
permissive mode (the `ON CONFLICT (canonical_name) DO NOTHING RETURNING id`
insert conflicts exactly when the canonical name already exists; the conflict
path selects the existing row's id and never uses the generated id). -/
def afterSearch (ctx : ResolveCtx) (db : Db) (team_name context : List Char)
    (best : Option (Nat × List Char)) : Db × Except IngestErr Nat :=
  match best with
  | some (id, canonical) => (attachAliasIfDiff db team_name id canonical, .ok id)
  | none =>
    if ctx.strict_team_matching then
      ({ db with audit := db.audit ++ [mkAudit team_name none context false] },
        .error (.unresolvedTeam team_name))
    else
      let canonical_name := normalize_team_name team_name
      let team_id := db.nextId
      match db.teams.find? (fun t => decide (t.canonical_name = canonical_name)) with
      | some t =>
        (insertAlias { db with nextId := db.nextId + 1 } t.id team_name, .ok t.id)
      | none =>
        (insertAlias
          { db with
            teams := db.teams ++ [{ id := team_id, canonical_name := canonical_name }],
            nextId := db.nextId + 1 } team_id team_name, .ok team_id)

/-- Model of `get_or_create_team`. -/
def get_or_create_team (ctx : ResolveCtx) (db : Db) (team_name context : List Char) :
    Db × Except IngestErr Nat :=
  match candLoop ctx db (team_name_candidates team_name) none with
  | .foundRated id canonical => (attachAliasIfDiff db team_name id canonical, .ok id)
  | .fallthrough best0 =>
    match resolve_team_fuzzy db team_name with
    | some (id, canonical, true) => (attachAliasIfDiff db team_name id canonical, .ok id)
    | some (id, canonical, false) =>
      afterSearch ctx db team_name context
        (if best0.isSome then best0 else some (id, canonical))
    | none => afterSearch ctx db team_name context best0

/- ### Game upsert and event processing -/

structure BkBookmaker where
  key : List Char
  markets : List BkMarket
deriving DecidableEq

/-- The input event (`OddsApiEvent`). -/
structure ApiEvent where
  id : List Char
  commence_time : Option Int
  home_team : List Char
  away_team : List Char
  bookmakers : List BkBookmaker
deriving DecidableEq

/-- Model of `get_or_create_game`: resolve both teams, reject equal ids
before any write to `games`, write one audit row per side, then upsert the
game keyed on `external_id` (on conflict the team ids, commence time and
status are overwritten). -/
def get_or_create_game (ctx : ResolveCtx) (db : Db) (event : ApiEvent)
    (now : Int) : Db × Except IngestErr Nat :=
  match get_or_create_team ctx db event.home_team ("home_team".data) with
  | (db1, .error e) => (db1, .error e)
  | (db1, .ok home_team_id) =>
    match get_or_create_team ctx db1 event.away_team ("away_team".data) with
    | (db2, .error e) => (db2, .error e)
    | (db2, .ok away_team_id) =>
      if home_team_id = away_team_id then
        (db2, .error .sameTeamIds)
      else
        let home_canonical :=
          (db2.teams.find? (fun t => decide (t.id = home_team_id))).map
            (fun t => t.canonical_name)
        let away_canonical :=
          (db2.teams.find? (fun t => decide (t.id = away_team_id))).map
            (fun t => t.canonical_name)
        let db3 := { db2 with audit := db2.audit ++
          [mkAudit event.home_team (some (home_canonical.getD []))
            ("home_team".data) (decide (home_team_id ∈ db2.ratings))] }
        let db4 := { db3 with audit := db3.audit ++
          [mkAudit event.away_team (some (away_canonical.getD []))
            ("away_team".data) (decide (away_team_id ∈ db3.ratings))] }
        let game_id := db4.nextId
        let commence := event.commence_time.getD now
        match db4.games.find? (fun g => decide (g.external_id = event.id)) with
        | some g =>
          ({ db4 with
            games := db4.games.map (fun g' =>
              if decide (g'.external_id = event.id) then
                { g' with
                  home_team_id := home_team_id,
                  away_team_id := away_team_id,
                  commence_time := commence,
                  status := "scheduled".data }
              else g'),
            nextId := db4.nextId + 1 }, .ok g.id)
        | none =>
          ({ db4 with
            games := db4.games ++
              [{ id := game_id,
                 external_id := event.id,
                 home_team_id := home_team_id,
                 away_team_id := away_team_id,
                 commence_time := commence,
                 status := "scheduled".data }],
            nextId := db4.nextId + 1 }, .ok game_id)

/-- The game-id cache (`HashMap<String, Uuid>` inside `GameCache`). -/
def lookupC : List (List Char × Nat) → List Char → Option Nat
  | [], _ => none
  | (k', v) :: rest, k => if k' = k then some v else lookupC rest k

def insertC : List (List Char × Nat) → List Char → Nat → List (List Char × Nat)
  | [], k, v => [(k, v)]
  | (k', v') :: rest, k, v =>
    if k' = k then (k, v) :: rest else (k', v') :: insertC rest k v

/-- The snapshot-collection loops over bookmakers and markets for one event. -/
def snapshotsOfEvent (time : Int) (game_id : Nat) (event : ApiEvent) :
    List Snapshot :=
  event.bookmakers.foldl (fun acc bk =>
    bk.markets.foldl (fun acc2 m =>
      match extract_odds_snapshot time game_id event.id bk.key m
        event.home_team with
      | some s => acc2 ++ [s]
      | none => acc2) acc) []

/-- Model of `process_events` (sequential execution of the loop body; the
cache's concurrent protocol is modelled separately).  A failing game
resolution increments the skip counter and continues; the function is total,
so a failing event never fails the cycle. -/
def process_events (ctx : ResolveCtx) (cache : List (List Char × Nat)) (db : Db)
    (events : List ApiEvent) (now : Int) :
    List Snapshot × Nat × List (List Char × Nat) × Db :=
  match events with
  | [] => ([], 0, cache, db)
  | e :: rest =>
    match lookupC cache e.id with
    | some gid =>
      let r := process_events ctx cache db rest now
      (snapshotsOfEvent now gid e ++ r.1, r.2.1, r.2.2.1, r.2.2.2)
    | none =>
      match get_or_create_game ctx db e now with
      | (db', .ok gid) =>
        let r := process_events ctx (insertC cache e.id gid) db' rest now
        (snapshotsOfEvent now gid e ++ r.1, r.2.1, r.2.2.1, r.2.2.2)
      | (db', .error _) =>
        let r := process_events ctx cache db' rest now
        (r.1, r.2.1 + 1, r.2.2.1, r.2.2.2)

/- ### Lemmas about team resolution -/

theorem insertAlias_fields (db : Db) (id : Nat) (text : List Char) :
    (insertAlias db id text).games = db.games ∧
    (insertAlias db id text).teams = db.teams ∧
    (insertAlias db id text).audit = db.audit ∧
    (insertAlias db id text).ratings = db.ratings := by
  unfold insertAlias
  split_ifs <;> exact ⟨rfl, rfl, rfl, rfl⟩

theorem attachAliasIfDiff_fields (db : Db) (n : List Char) (id : Nat)
    (canonical : List Char) :
    (attachAliasIfDiff db n id canonical).games = db.games ∧
    (attachAliasIfDiff db n id canonical).teams = db.teams ∧
    (attachAliasIfDiff db n id canonical).audit = db.audit ∧
    (attachAliasIfDiff db n id canonical).ratings = db.ratings := by
  unfold attachAliasIfDiff
  split_ifs
  · exact ⟨rfl, rfl, rfl, rfl⟩
  · exact insertAlias_fields db id n

theorem afterSearch_some (ctx : ResolveCtx) (db : Db) (n c : List Char)
    (id : Nat) (canonical : List Char) :
    afterSearch ctx db n c (some (id, canonical))
      = (attachAliasIfDiff db n id canonical, .ok id) := rfl

theorem afterSearch_none_strict (ctx : ResolveCtx) (db : Db) (n c : List Char)
    (h : ctx.strict_team_matching = true) :
    afterSearch ctx db n c none
      = ({ db with audit := db.audit ++ [mkAudit n none c false] },
         .error (.unresolvedTeam n)) := by
  unfold afterSearch
  dsimp only
  rw [if_pos h]

theorem afterSearch_conflict (ctx : ResolveCtx) (db : Db) (n c : List Char)
    (t : TeamRow) (hperm : ctx.strict_team_matching = false)
    (hfind : db.teams.find?
      (fun u => decide (u.canonical_name = normalize_team_name n)) = some t) :
    afterSearch ctx db n c none
      = (insertAlias { db with nextId := db.nextId + 1 } t.id n, .ok t.id) := by
  unfold afterSearch
  dsimp only
  rw [if_neg (by rw [hperm]; simp), hfind]

theorem afterSearch_insert (ctx : ResolveCtx) (db : Db) (n c : List Char)
    (hperm : ctx.strict_team_matching = false)
    (hfind : db.teams.find?
      (fun u => decide (u.canonical_name = normalize_team_name n)) = none) :
    afterSearch ctx db n c none
      = (insertAlias
          { db with
            teams := db.teams ++
              [{ id := db.nextId, canonical_name := normalize_team_name n }],
            nextId := db.nextId + 1 } db.nextId n, .ok db.nextId) := by
  unfold afterSearch
  dsimp only
  rw [if_neg (by rw [hperm]; simp), hfind]

/-- `afterSearch` never changes the stored games. -/
theorem afterSearch_games (ctx : ResolveCtx) (db : Db) (n c : List Char)
    (best : Option (Nat × List Char)) :
    (afterSearch ctx db n c best).1.games = db.games := by
  cases best with
  | some b =>
    obtain ⟨id, canonical⟩ := b
    rw [afterSearch_some]
    exact (attachAliasIfDiff_fields db n id canonical).1
  | none =>
    by_cases hstrict : ctx.strict_team_matching = true
    · rw [afterSearch_none_strict ctx db n c hstrict]
    · have hperm : ctx.strict_team_matching = false := by
        cases hb : ctx.strict_team_matching
        · rfl
        · exact absurd hb hstrict
      cases hfind : db.teams.find?
          (fun u => decide (u.canonical_name = normalize_team_name n)) with
      | some t =>
        rw [afterSearch_conflict ctx db n c t hperm hfind]
        exact (insertAlias_fields _ _ _).1
      | none =>
        rw [afterSearch_insert ctx db n c hperm hfind]
        exact (insertAlias_fields _ _ _).1

/-- `get_or_create_team` never changes the stored games. -/
theorem get_or_create_team_games (ctx : ResolveCtx) (db : Db)
    (team_name context : List Char) :
    (get_or_create_team ctx db team_name context).1.games = db.games := by
  unfold get_or_create_team
  cases candLoop ctx db (team_name_candidates team_name) none with
  | foundRated id canonical =>
    exact (attachAliasIfDiff_fields db team_name id canonical).1
  | fallthrough best0 =>
    dsimp only
    cases resolve_team_fuzzy db team_name with
    | some t =>
      obtain ⟨id, canonical, rated⟩ := t
      cases rated with
      | true => exact (attachAliasIfDiff_fields db team_name id canonical).1
      | false => exact afterSearch_games ctx db team_name _ _
    | none => exact afterSearch_games ctx db team_name _ _

/-- The candidate loop falls through with no fallback exactly when the
incoming fallback is empty and no candidate strict-resolves. -/
theorem candLoop_fallthrough_none_iff (ctx : ResolveCtx) (db : Db) :
    ∀ (cands : List (List Char)) (best : Option (Nat × List Char)),
      candLoop ctx db cands best = .fallthrough none ↔
        (best = none ∧ ∀ c ∈ cands, resolve_team_strict ctx db c = none) := by
  intro cands
  induction cands with
  | nil =>
    intro best
    constructor
    · intro h
      cases best with
      | none => exact ⟨rfl, by simp⟩
      | some b => cases h
    · intro ⟨hb, _⟩
      subst hb
      rfl
  | cons c rest ih =>
    intro best
    unfold candLoop
    cases hres : resolve_team_strict ctx db c with
    | some t =>
      obtain ⟨id, canonical, rated⟩ := t
      cases rated with
      | true =>
        dsimp only
        constructor
        · intro h; cases h
        · intro ⟨_, hall⟩
          have := hall c (by simp)
          rw [hres] at this
          cases this
      | false =>
        dsimp only
        rw [ih]
        constructor
        · intro ⟨hbest, _⟩
          exfalso
          cases best with
          | none => simp at hbest
          | some b => simp at hbest
        · intro ⟨_, hall⟩
          have := hall c (by simp)
          rw [hres] at this
          cases this
    | none =>
      dsimp only
      rw [ih]
      constructor
      · intro ⟨hb, hrest⟩
        refine ⟨hb, ?_⟩
        intro u hu
        rcases List.mem_cons.mp hu with h | h
        · subst h; exact hres
        · exact hrest u h
      · intro ⟨hb, hall⟩
        exact ⟨hb, fun u hu => hall u (by simp [hu])⟩

/-- C3: `get_or_create_team` fails (with the unresolved-team error) iff strict
mode is on and neither any generated candidate nor the fuzzy lookup matches;
and the failing call appends exactly one audit record carrying the input name
and context with a null resolved name and `has_ratings = false`, touching
nothing else (source lines 1157-1173). -/
theorem get_or_create_team_strict_spec (ctx : ResolveCtx) (db : Db)
    (team_name context : List Char) :
    ((∃ e, (get_or_create_team ctx db team_name context).2 = .error e) ↔
      (ctx.strict_team_matching = true ∧
       (∀ c ∈ team_name_candidates team_name,
         resolve_team_strict ctx db c = none) ∧
       resolve_team_fuzzy db team_name = none)) ∧
    (∀ e, (get_or_create_team ctx db team_name context).2 = .error e →
      e = .unresolvedTeam team_name ∧
      (get_or_create_team ctx db team_name context).1
        = { db with audit := db.audit ++ [mkAudit team_name none context false] }) := by
  unfold get_or_create_team
  cases hc : candLoop ctx db (team_name_candidates team_name) none with
  | foundRated id canonical =>
    dsimp only
    constructor
    · constructor
      · intro he
        obtain ⟨e, he⟩ := he
        cases he
      · intro hrhs
        obtain ⟨_, hall, _⟩ := hrhs
        rw [(candLoop_fallthrough_none_iff ctx db _ none).mpr ⟨rfl, hall⟩] at hc
        cases hc
    · intro e he; cases he
  | fallthrough best0 =>
    dsimp only
    cases hf : resolve_team_fuzzy db team_name with
    | some t =>
      obtain ⟨id, canonical, rated⟩ := t
      cases rated with
      | true =>
        dsimp only
        constructor
        · constructor
          · intro he
            obtain ⟨e, he⟩ := he
            cases he
          · intro hrhs
            obtain ⟨_, _, hnone⟩ := hrhs
            cases hnone
        · intro e he; cases he
      | false =>
        dsimp only
        cases best0 with
        | some b =>
          obtain ⟨bid, bcanonical⟩ := b
          rw [show (if (some (bid, bcanonical)).isSome then some (bid, bcanonical)
              else some (id, canonical)) = some (bid, bcanonical) from rfl,
            afterSearch_some]
          constructor
          · constructor
            · intro he
              obtain ⟨e, he⟩ := he
              cases he
            · intro hrhs
              obtain ⟨_, _, hnone⟩ := hrhs
              cases hnone
          · intro e he; cases he
        | none =>
          rw [show (if (none : Option (Nat × List Char)).isSome then none
              else some (id, canonical)) = some (id, canonical) from rfl,
            afterSearch_some]
          constructor
          · constructor
            · intro he
              obtain ⟨e, he⟩ := he
              cases he
            · intro hrhs
              obtain ⟨_, _, hnone⟩ := hrhs
              cases hnone
          · intro e he; cases he
    | none =>
      dsimp only
      cases best0 with
      | some b =>
        obtain ⟨bid, bcanonical⟩ := b
        rw [afterSearch_some]
        constructor
        · constructor
          · intro he
            obtain ⟨e, he⟩ := he
            cases he
          · intro hrhs
            obtain ⟨_, hall, _⟩ := hrhs
            rw [(candLoop_fallthrough_none_iff ctx db _ none).mpr ⟨rfl, hall⟩] at hc
            cases hc
        · intro e he; cases he
      | none =>
        by_cases hstrict : ctx.strict_team_matching = true
        · rw [afterSearch_none_strict ctx db team_name context hstrict]
          have hall := ((candLoop_fallthrough_none_iff ctx db _ none).mp hc).2
          constructor
          · constructor
            · intro _
              exact ⟨hstrict, hall, rfl⟩
            · intro _
              exact ⟨.unresolvedTeam team_name, rfl⟩
          · intro e he
            cases he
            exact ⟨rfl, rfl⟩
        · have hperm : ctx.strict_team_matching = false := by
            cases hb : ctx.strict_team_matching
            · rfl
            · exact absurd hb hstrict
          have hok : ∃ i, (afterSearch ctx db team_name context none).2 = .ok i := by
            cases hfind : db.teams.find?
                (fun u => decide (u.canonical_name = normalize_team_name team_name)) with
            | some t =>
              rw [afterSearch_conflict ctx db team_name context t hperm hfind]
              exact ⟨t.id, rfl⟩
            | none =>
              rw [afterSearch_insert ctx db team_name context hperm hfind]
              exact ⟨db.nextId, rfl⟩
          obtain ⟨i, hi⟩ := hok
          constructor
          · constructor
            · intro he
              obtain ⟨e, he⟩ := he
              rw [hi] at he
              cases he
            · intro hrhs
              exact absurd hrhs.1 hstrict
          · intro e he
            rw [hi] at he
            cases he

/-- C4: in permissive mode, when nothing matches and the team insert conflicts
on an existing canonical name, `get_or_create_team` returns the existing
entity's id, inserts no team row, and never returns the freshly generated id
(source lines 1175-1217). -/
theorem get_or_create_team_conflict (ctx : ResolveCtx) (db : Db)
    (team_name context : List Char) (t : TeamRow)
    (hperm : ctx.strict_team_matching = false)
    (hcands : ∀ c ∈ team_name_candidates team_name,
      resolve_team_strict ctx db c = none)
    (hfuzzy : resolve_team_fuzzy db team_name = none)
    (hconflict : db.teams.find?
      (fun u => decide (u.canonical_name = normalize_team_name team_name))
      = some t) :
    (get_or_create_team ctx db team_name context).2 = .ok t.id ∧
    (get_or_create_team ctx db team_name context).1.teams = db.teams ∧
    (t.id ≠ db.nextId →
      (get_or_create_team ctx db team_name context).2 ≠ .ok db.nextId) := by
  have hcl : candLoop ctx db (team_name_candidates team_name) none
      = .fallthrough none :=
    (candLoop_fallthrough_none_iff ctx db _ none).mpr ⟨rfl, hcands⟩
  unfold get_or_create_team
  rw [hcl]
  dsimp only
  rw [hfuzzy]
  dsimp only
  rw [afterSearch_conflict ctx db team_name context t hperm hconflict]
  refine ⟨rfl, ?_, ?_⟩
  · exact (insertAlias_fields _ _ _).2.1
  · intro hne hok
    exact hne (Except.ok.inj hok)

/- ### Concrete inputs for the resolver theorems -/

def emptyDb : Db :=
  { teams := [], ratings := [], aliases := [], audit := [], games := [],
    nextId := 0 }

/-- Strict configuration whose store-side `resolve_team_name` matches
nothing. -/
def wCtxStrict : ResolveCtx :=
  { strict_team_matching := true, resolveTeamName := fun _ => none }

/-- Witness for C3: an unknown name under strict matching fails and appends
exactly one null-resolution audit record. -/
theorem get_or_create_team_strict_spec_witness :
    (get_or_create_team wCtxStrict emptyDb ("Zzz".data) ("home_team".data)).2
      = .error (.unresolvedTeam ("Zzz".data)) ∧
    (get_or_create_team wCtxStrict emptyDb ("Zzz".data) ("home_team".data)).1
      = { emptyDb with
          audit := [mkAudit ("Zzz".data) none ("home_team".data) false] } := by
  have h := get_or_create_team_strict_spec wCtxStrict emptyDb ("Zzz".data)
    ("home_team".data)
  have herr := h.1.mpr ⟨rfl, fun c _ => rfl, rfl⟩
  obtain ⟨e, he⟩ := herr
  obtain ⟨heq, hdb⟩ := h.2 e he
  subst heq
  exact ⟨he, hdb⟩

/-- Permissive configuration whose store-side `resolve_team_name` matches
nothing. -/
def wCtxPerm : ResolveCtx :=
  { strict_team_matching := false, resolveTeamName := fun _ => none }

/-- A store already holding the team "Xyz" with id 7; fresh ids start at 99. -/
def wDbC4 : Db :=
  { teams := [{ id := 7, canonical_name := "Xyz".data }], ratings := [],
    aliases := [], audit := [], games := [], nextId := 99 }

/-- Witness for C4: "Xyz (CA)" normalizes to the existing canonical name
"Xyz"; the conflicting insert resolves to the existing id 7, not the fresh
id 99. -/
theorem get_or_create_team_conflict_witness :
    (get_or_create_team wCtxPerm wDbC4 ("Xyz (CA)".data) ("home_team".data)).2
      = .ok 7 ∧
    (get_or_create_team wCtxPerm wDbC4 ("Xyz (CA)".data) ("home_team".data)).1.teams
      = wDbC4.teams ∧
    (get_or_create_team wCtxPerm wDbC4 ("Xyz (CA)".data) ("home_team".data)).2
      ≠ .ok 99 := by
  have h := get_or_create_team_conflict wCtxPerm wDbC4 ("Xyz (CA)".data)
    ("home_team".data) { id := 7, canonical_name := "Xyz".data }
    rfl (fun c _ => rfl) (by decide) (by decide)
  exact ⟨h.1, h.2.1, h.2.2 (by decide)⟩

/- ### Lemmas about `get_or_create_game` and `process_events` -/

/-- Resolving both sides to the same id makes `get_or_create_game` fail with
the same-team error, leaving the games table untouched. -/
theorem get_or_create_game_same (ctx : ResolveCtx) (db : Db) (e : ApiEvent)
    (now : Int) (tid : Nat)
    (h1 : (get_or_create_team ctx db e.home_team ("home_team".data)).2 = .ok tid)
    (h2 : (get_or_create_team ctx
        (get_or_create_team ctx db e.home_team ("home_team".data)).1
        e.away_team ("away_team".data)).2 = .ok tid) :
    (get_or_create_game ctx db e now).2 = .error .sameTeamIds ∧
    (get_or_create_game ctx db e now).1.games = db.games := by
  have hpair1 : get_or_create_team ctx db e.home_team ("home_team".data)
      = ((get_or_create_team ctx db e.home_team ("home_team".data)).1,
         Except.ok tid) := by
    rw [← h1]
  have hpair2 : get_or_create_team ctx
      (get_or_create_team ctx db e.home_team ("home_team".data)).1
      e.away_team ("away_team".data)
      = ((get_or_create_team ctx
          (get_or_create_team ctx db e.home_team ("home_team".data)).1
          e.away_team ("away_team".data)).1, Except.ok tid) := by
    rw [← h2]
  unfold get_or_create_game
  rw [hpair1]
  dsimp only
  rw [hpair2]
  dsimp only
  rw [if_pos rfl]
  refine ⟨rfl, ?_⟩
  rw [get_or_create_team_games, get_or_create_team_games]

/-- `get_or_create_game` preserves home/away distinctness of every stored
game: an equal-id event writes nothing, and a successful upsert writes the
checked pair. -/
theorem get_or_create_game_inv (ctx : ResolveCtx) (db : Db) (e : ApiEvent)
    (now : Int)
    (hinv : ∀ g ∈ db.games, g.home_team_id ≠ g.away_team_id) :
    ∀ g ∈ (get_or_create_game ctx db e now).1.games,
      g.home_team_id ≠ g.away_team_id := by
  have hpair1 : get_or_create_team ctx db e.home_team ("home_team".data)
      = ((get_or_create_team ctx db e.home_team ("home_team".data)).1,
         (get_or_create_team ctx db e.home_team ("home_team".data)).2) := rfl
  unfold get_or_create_game
  cases hr1 : (get_or_create_team ctx db e.home_team ("home_team".data)).2 with
  | error er =>
    rw [hpair1, hr1]
    dsimp only
    rw [get_or_create_team_games]
    exact hinv
  | ok hid =>
    rw [hpair1, hr1]
    dsimp only
    have hg1 : (get_or_create_team ctx db e.home_team ("home_team".data)).1.games
        = db.games := get_or_create_team_games ctx db _ _
    set db1 := (get_or_create_team ctx db e.home_team ("home_team".data)).1 with hdb1
    have hpair2 : get_or_create_team ctx db1 e.away_team ("away_team".data)
        = ((get_or_create_team ctx db1 e.away_team ("away_team".data)).1,
           (get_or_create_team ctx db1 e.away_team ("away_team".data)).2) := rfl
    cases hr2 : (get_or_create_team ctx db1 e.away_team ("away_team".data)).2 with
    | error er =>
      rw [hpair2, hr2]
      dsimp only
      rw [get_or_create_team_games, hg1]
      exact hinv
    | ok aid =>
      rw [hpair2, hr2]
      dsimp only
      have hg2 : (get_or_create_team ctx db1 e.away_team ("away_team".data)).1.games
          = db.games := by rw [get_or_create_team_games, hg1]
      set db2 := (get_or_create_team ctx db1 e.away_team ("away_team".data)).1
        with hdb2
      by_cases heq : hid = aid
      · rw [if_pos heq]
        dsimp only
        rw [hg2]
        exact hinv
      · rw [if_neg heq]
        cases hfind : db2.games.find? (fun g => decide (g.external_id = e.id)) with
        | some g0 =>
          dsimp only
          intro g hg
          obtain ⟨g', hg', hgeq⟩ := List.mem_map.mp hg
          by_cases hcond : decide (g'.external_id = e.id) = true
          · rw [if_pos hcond] at hgeq
            rw [← hgeq]
            exact heq
          · rw [if_neg hcond] at hgeq
            rw [← hgeq]
            rw [hg2] at hg'
            exact hinv g' hg'
        | none =>
          dsimp only
          intro g hg
          rcases List.mem_append.mp hg with h | h
          · rw [hg2] at h
            exact hinv g h
          · rw [List.mem_singleton] at h
            rw [h]
            exact heq

/-- A cache-missing event whose game resolution fails is skipped and counted;
the remaining events are still processed. -/
theorem process_events_skip (ctx : ResolveCtx) (cache : List (List Char × Nat))
    (db : Db) (e : ApiEvent) (rest : List ApiEvent) (now : Int)
    (err : IngestErr) (hmiss : lookupC cache e.id = none)
    (hfail : (get_or_create_game ctx db e now).2 = .error err) :
    process_events ctx cache db (e :: rest) now
      = ((process_events ctx cache (get_or_create_game ctx db e now).1 rest now).1,
         (process_events ctx cache (get_or_create_game ctx db e now).1 rest now).2.1
           + 1,
         (process_events ctx cache (get_or_create_game ctx db e now).1 rest now).2.2)
      := by
  have hpair : get_or_create_game ctx db e now
      = ((get_or_create_game ctx db e now).1, Except.error err) := by
    rw [← hfail]
  rw [process_events, hmiss]
  dsimp only
  rw [hpair]

/-- `process_events` preserves home/away distinctness of every stored game. -/
theorem process_events_inv (ctx : ResolveCtx) (events : List ApiEvent) :
    ∀ (cache : List (List Char × Nat)) (db : Db) (now : Int),
      (∀ g ∈ db.games, g.home_team_id ≠ g.away_team_id) →
      ∀ g ∈ (process_events ctx cache db events now).2.2.2.games,
        g.home_team_id ≠ g.away_team_id := by
  induction events with
  | nil => intro cache db now hinv; exact hinv
  | cons e rest ih =>
    intro cache db now hinv
    unfold process_events
    cases lookupC cache e.id with
    | some gid =>
      dsimp only
      exact ih cache db now hinv
    | none =>
      dsimp only
      have hpair : get_or_create_game ctx db e now
          = ((get_or_create_game ctx db e now).1,
             (get_or_create_game ctx db e now).2) := rfl
      rw [hpair]
      have hinv' := get_or_create_game_inv ctx db e now hinv
      cases (get_or_create_game ctx db e now).2 with
      | ok gid =>
        dsimp only
        exact ih _ _ now hinv'
      | error er =>
        dsimp only
        exact ih _ _ now hinv'

/-- C1: when an event's home and away names resolve to the same entity id,
`get_or_create_game` fails before any game row is written; every stored game
keeps distinct home/away ids through game upserts and whole processing runs;
and in `process_events` such a failing event is skipped and counted while the
cycle continues with the remaining events (source lines 849-867 and
971-984). -/
theorem same_team_event_policy (ctx : ResolveCtx) (db : Db) (e : ApiEvent)
    (now : Int) (tid : Nat) (cache : List (List Char × Nat))
    (rest events : List ApiEvent) :
    (((get_or_create_team ctx db e.home_team ("home_team".data)).2 = .ok tid →
      (get_or_create_team ctx
          (get_or_create_team ctx db e.home_team ("home_team".data)).1
          e.away_team ("away_team".data)).2 = .ok tid →
      (get_or_create_game ctx db e now).2 = .error .sameTeamIds ∧
      (get_or_create_game ctx db e now).1.games = db.games)) ∧
    ((∀ g ∈ db.games, g.home_team_id ≠ g.away_team_id) →
      ∀ g ∈ (get_or_create_game ctx db e now).1.games,
        g.home_team_id ≠ g.away_team_id) ∧
    (∀ err, lookupC cache e.id = none →
      (get_or_create_game ctx db e now).2 = .error err →
      process_events ctx cache db (e :: rest) now
        = ((process_events ctx cache (get_or_create_game ctx db e now).1 rest now).1,
           (process_events ctx cache (get_or_create_game ctx db e now).1 rest
             now).2.1 + 1,
           (process_events ctx cache (get_or_create_game ctx db e now).1 rest
             now).2.2)) ∧
    ((∀ g ∈ db.games, g.home_team_id ≠ g.away_team_id) →
      ∀ g ∈ (process_events ctx cache db events now).2.2.2.games,
        g.home_team_id ≠ g.away_team_id) := by
  refine ⟨?_, ?_, ?_, ?_⟩
  · intro h1 h2
    exact get_or_create_game_same ctx db e now tid h1 h2
  · intro hinv
    exact get_or_create_game_inv ctx db e now hinv
  · intro err hmiss hfail
    exact process_events_skip ctx cache db e rest now err hmiss hfail
  · intro hinv
    exact process_events_inv ctx events cache db now hinv

/- ### The candidate list starts with the trimmed raw name -/

theorem add_variants_extends (s : List Char) (out : List (List Char)) :
    ∃ ext, add_variants s out = out ++ ext := by
  unfold add_variants
  by_cases h : trim s = []
  · rw [if_pos h]; exact ⟨[], by simp⟩
  · rw [if_neg h]
    cases expand_prefix_abbrev s with
    | some e => exact ⟨[trim s] ++ [e], by simp⟩
    | none => exact ⟨[trim s], rfl⟩

theorem foldl_add_variants_extends (sts : List (List Char)) :
    ∀ out, ∃ ext,
      sts.foldl (fun o st => add_variants st o) out = out ++ ext := by
  induction sts with
  | nil => intro out; exact ⟨[], by simp⟩
  | cons s sts ih =>
    intro out
    rw [List.foldl_cons]
    obtain ⟨e1, he1⟩ := add_variants_extends s out
    obtain ⟨e2, he2⟩ := ih (add_variants s out)
    exact ⟨e1 ++ e2, by rw [he2, he1, List.append_assoc]⟩

/-- For a non-blank name the candidate list is nonempty and starts with the
trimmed raw name. -/
theorem team_name_candidates_head (name : List Char) (h : trim name ≠ []) :
    ∃ rest, team_name_candidates name = trim name :: rest := by
  unfold team_name_candidates
  dsimp only
  rw [if_neg h]
  have hout1 : ∃ t1, (if normalize_lookup_name (trim name) = [] then [trim name]
      else (strip_mascot_suffixes (normalize_lookup_name (trim name))).foldl
        (fun o st => add_variants st o)
        (add_variants (normalize_lookup_name (trim name)) [trim name]))
      = trim name :: t1 := by
    by_cases hcl : normalize_lookup_name (trim name) = []
    · rw [if_pos hcl]; exact ⟨[], rfl⟩
    · rw [if_neg hcl]
      obtain ⟨e1, he1⟩ :=
        add_variants_extends (normalize_lookup_name (trim name)) [trim name]
      obtain ⟨e2, he2⟩ := foldl_add_variants_extends
        (strip_mascot_suffixes (normalize_lookup_name (trim name)))
        (add_variants (normalize_lookup_name (trim name)) [trim name])
      rw [he2, he1]
      exact ⟨e1 ++ e2, by simp⟩
  obtain ⟨t1, ht1⟩ := hout1
  rw [ht1]
  have hout2 : ∃ t2, (if replaceStateSt (normalize_lookup_name (trim name)) ≠ [] ∧
      replaceStateSt (normalize_lookup_name (trim name))
        ≠ normalize_lookup_name (trim name) then
      add_variants (replaceStateSt (normalize_lookup_name (trim name)))
        (trim name :: t1)
    else trim name :: t1) = trim name :: t2 := by
    by_cases hsa : replaceStateSt (normalize_lookup_name (trim name)) ≠ [] ∧
        replaceStateSt (normalize_lookup_name (trim name))
          ≠ normalize_lookup_name (trim name)
    · rw [if_pos hsa]
      obtain ⟨e, he⟩ := add_variants_extends
        (replaceStateSt (normalize_lookup_name (trim name))) (trim name :: t1)
      rw [he]
      exact ⟨t1 ++ e, by simp⟩
    · rw [if_neg hsa]
      exact ⟨t1, rfl⟩
  obtain ⟨t2, ht2⟩ := hout2
  rw [ht2]
  unfold dedupCIAux
  rw [if_neg (by simp)]
  exact ⟨dedupCIAux [(trim name).map Char.toLower] t2, rfl⟩

/- ### Concrete inputs for the game-distinctness theorem -/

/-- A store-side resolver that maps every name to the canonical name "Duke". -/
def wCtxC1 : ResolveCtx :=
  { strict_team_matching := true,
    resolveTeamName := fun _ => some ("Duke".data) }

def wDbC1 : Db :=
  { teams := [{ id := 1, canonical_name := "Duke".data }], ratings := [1],
    aliases := [], audit := [], games := [], nextId := 50 }

/-- An event whose two distinct team names both resolve to team 1. -/
def wEvC1 : ApiEvent :=
  { id := "e1".data, commence_time := some 1000, home_team := "TeamA".data,
    away_team := "TeamB".data, bookmakers := [] }

theorem resolve_team_strict_congr (ctx : ResolveCtx) (db db' : Db)
    (c : List Char) (ht : db'.teams = db.teams) (hr : db'.ratings = db.ratings) :
    resolve_team_strict ctx db' c = resolve_team_strict ctx db c := by
  unfold resolve_team_strict
  rw [ht, hr]

theorem get_or_create_team_headRated (ctx : ResolveCtx) (db : Db)
    (team_name context : List Char) (id : Nat) (canonical : List Char)
    (hne : trim team_name ≠ [])
    (hres : ∀ c, resolve_team_strict ctx db c = some (id, canonical, true)) :
    get_or_create_team ctx db team_name context
      = (attachAliasIfDiff db team_name id canonical, .ok id) := by
  obtain ⟨rest, hcand⟩ := team_name_candidates_head team_name hne
  unfold get_or_create_team
  rw [hcand]
  unfold candLoop
  rw [hres (trim team_name)]

/-- Witness for C1: both sides of `wEvC1` resolve to team 1, so the game
upsert is refused, no game row appears, and processing the event skips it
and counts one skip. -/
theorem same_team_event_policy_witness :
    (get_or_create_game wCtxC1 wDbC1 wEvC1 0).2 = .error .sameTeamIds ∧
    (get_or_create_game wCtxC1 wDbC1 wEvC1 0).1.games = [] ∧
    (process_events wCtxC1 [] wDbC1 [wEvC1] 0).2.1 = 1 := by
  have hp := same_team_event_policy wCtxC1 wDbC1 wEvC1 0 1 [] [] [wEvC1]
  have hres : ∀ (db' : Db), db'.teams = wDbC1.teams →
      db'.ratings = wDbC1.ratings →
      ∀ c, resolve_team_strict wCtxC1 db' c = some (1, "Duke".data, true) := by
    intro db' ht hr c
    rw [resolve_team_strict_congr wCtxC1 wDbC1 db' c ht hr]
    rfl
  have hfull1 := get_or_create_team_headRated wCtxC1 wDbC1 wEvC1.home_team
    ("home_team".data) 1 ("Duke".data) (by decide) (hres wDbC1 rfl rfl)
  have h1 : (get_or_create_team wCtxC1 wDbC1 wEvC1.home_team
      ("home_team".data)).2 = .ok 1 := by rw [hfull1]
  have hdb1 : (get_or_create_team wCtxC1 wDbC1 wEvC1.home_team
      ("home_team".data)).1 = attachAliasIfDiff wDbC1 wEvC1.home_team 1 ("Duke".data) := by
    rw [hfull1]
  have h2 : (get_or_create_team wCtxC1
      (get_or_create_team wCtxC1 wDbC1 wEvC1.home_team ("home_team".data)).1
      wEvC1.away_team ("away_team".data)).2 = .ok 1 := by
    rw [get_or_create_team_headRated wCtxC1 _ wEvC1.away_team
      ("away_team".data) 1 ("Duke".data) (by decide)
      (hres _ (by rw [hdb1]; exact (attachAliasIfDiff_fields _ _ _ _).2.1)
        (by rw [hdb1]; exact (attachAliasIfDiff_fields _ _ _ _).2.2.2))]
  obtain ⟨herr, hgames⟩ := hp.1 h1 h2
  refine ⟨herr, by rw [hgames]; rfl, ?_⟩
  have hskip := hp.2.2.1 .sameTeamIds rfl herr
  rw [hskip]
  rfl

/- ### Concurrency model of `GameCache::get_or_insert_with` -/

/-- The program counter of one caller of `get_or_insert_with` for a fixed
external id: before the read-lock check, between read miss and write lock,
or finished with a returned id. -/
inductive CallerPC where
  | start
  | waiting
  | done (v : Nat)
deriving DecidableEq

/-- Global state of an `n`-caller run for one external id: that id's cache
entry, the number of factory invocations so far, and each caller's program
counter. -/
structure CacheRun (n : Nat) where
  cache : Option Nat
  invocations : Nat
  pcs : Fin n → CallerPC

/-- One interleaving step.  The `tokio::sync::RwLock` serializes every cache
access: the read-lock lookup is one atomic step, and the write-locked section
(the double-check, the factory call awaited under the lock, and the insert
before release) is a single atomic step, because no other caller can acquire
either lock while the write lock is held.  A successful factory invocation
number `k` returns `factory k`. -/
inductive CacheStep {n : Nat} (factory : Nat → Nat) :
    CacheRun n → CacheRun n → Prop
  | readHit (s : CacheRun n) (i : Fin n) (v : Nat)
      (hpc : s.pcs i = .start) (hc : s.cache = some v) :
      CacheStep factory s { s with pcs := Function.update s.pcs i (.done v) }
  | readMiss (s : CacheRun n) (i : Fin n)
      (hpc : s.pcs i = .start) (hc : s.cache = none) :
      CacheStep factory s { s with pcs := Function.update s.pcs i .waiting }
  | writeHit (s : CacheRun n) (i : Fin n) (v : Nat)
      (hpc : s.pcs i = .waiting) (hc : s.cache = some v) :
      CacheStep factory s { s with pcs := Function.update s.pcs i (.done v) }
  | writeMiss (s : CacheRun n) (i : Fin n)
      (hpc : s.pcs i = .waiting) (hc : s.cache = none) :
      CacheStep factory s
        { cache := some (factory s.invocations),
          invocations := s.invocations + 1,
          pcs := Function.update s.pcs i (.done (factory s.invocations)) }

/-- All callers start before the read-lock check with an empty entry. -/
def initRun (n : Nat) : CacheRun n :=
  { cache := none, invocations := 0, pcs := fun _ => .start }

def Reachable {n : Nat} (factory : Nat → Nat) (s : CacheRun n) : Prop :=
  Relation.ReflTransGen (CacheStep factory) (initRun n) s

/-- The protocol invariant. -/
def CacheInv {n : Nat} (factory : Nat → Nat) (s : CacheRun n) : Prop :=
  s.invocations ≤ 1 ∧
  (s.cache = none → s.invocations = 0 ∧ ∀ i v, s.pcs i ≠ .done v) ∧
  (∀ v, s.cache = some v → v = factory 0 ∧ s.invocations = 1) ∧
  (∀ i v, s.pcs i = .done v → v = factory 0)

theorem cacheStep_inv {n : Nat} (factory : Nat → Nat) (s s' : CacheRun n)
    (hstep : CacheStep factory s s') (hinv : CacheInv factory s) :
    CacheInv factory s' := by
  obtain ⟨h1, h2, h3, h4⟩ := hinv
  cases hstep with
  | readHit i v hpc hc =>
    obtain ⟨hv, hinvoc⟩ := h3 v hc
    refine ⟨h1, ?_, ?_, ?_⟩
    · intro hnone
      dsimp only at hnone
      rw [hc] at hnone
      cases hnone
    · intro w hw
      dsimp only at hw
      exact h3 w hw
    · intro j w hw
      dsimp only at hw
      by_cases hj : j = i
      · subst hj
        rw [Function.update_same] at hw
        injection hw with hw
        subst hw
        exact hv
      · rw [Function.update_noteq hj] at hw
        exact h4 j w hw
  | readMiss i hpc hc =>
    refine ⟨h1, ?_, ?_, ?_⟩
    · intro _
      refine ⟨(h2 hc).1, ?_⟩
      intro j v
      dsimp only
      by_cases hj : j = i
      · subst hj
        rw [Function.update_same]
        intro hw
        cases hw
      · rw [Function.update_noteq hj]
        exact (h2 hc).2 j v
    · intro w hw
      dsimp only at hw
      exact h3 w hw
    · intro j w hw
      dsimp only at hw
      by_cases hj : j = i
      · subst hj
        rw [Function.update_same] at hw
        cases hw
      · rw [Function.update_noteq hj] at hw
        exact h4 j w hw
  | writeHit i v hpc hc =>
    obtain ⟨hv, hinvoc⟩ := h3 v hc
    refine ⟨h1, ?_, ?_, ?_⟩
    · intro hnone
      dsimp only at hnone
      rw [hc] at hnone
      cases hnone
    · intro w hw
      dsimp only at hw
      exact h3 w hw
    · intro j w hw
      dsimp only at hw
      by_cases hj : j = i
      · subst hj
        rw [Function.update_same] at hw
        injection hw with hw
        subst hw
        exact hv
      · rw [Function.update_noteq hj] at hw
        exact h4 j w hw
  | writeMiss i hpc hc =>
    obtain ⟨hzero, hnodone⟩ := h2 hc
    refine ⟨?_, ?_, ?_, ?_⟩
    · show s.invocations + 1 ≤ 1
      omega
    · intro hnone
      dsimp only at hnone
      cases hnone
    · intro v hv
      dsimp only at hv
      injection hv with hv
      subst hv
      rw [hzero]
      exact ⟨rfl, rfl⟩
    · intro j w hw
      dsimp only at hw
      by_cases hj : j = i
      · subst hj
        rw [Function.update_same] at hw
        injection hw with hw
        subst hw
        rw [hzero]
      · rw [Function.update_noteq hj] at hw
        exact absurd hw (hnodone j w)

theorem reachable_inv {n : Nat} (factory : Nat → Nat) (s : CacheRun n)
    (h : Reachable factory s) : CacheInv factory s := by
  induction h with
  | refl =>
    refine ⟨Nat.zero_le 1, ?_, ?_, ?_⟩
    · intro _
      refine ⟨rfl, ?_⟩
      intro i v hv
      dsimp only [initRun] at hv
      cases hv
    · intro v hv
      dsimp only [initRun] at hv
      cases hv
    · intro i v hv
      dsimp only [initRun] at hv
      cases hv
  | tail hprev hstep ih =>
    exact cacheStep_inv factory _ _ hstep ih

/-- C2: in any interleaving of `n` concurrent `get_or_insert_with` callers
for the same external id, the factory runs at most once, every finished
caller received the single factory result, and once any caller finished the
factory has run exactly once (source lines 297-327). -/
theorem get_or_insert_with_spec (n : Nat) (factory : Nat → Nat)
    (s : CacheRun n) (h : Reachable factory s) :
    s.invocations ≤ 1 ∧
    (∀ i j v w, s.pcs i = .done v → s.pcs j = .done w → v = w) ∧
    (∀ i v, s.pcs i = .done v → s.invocations = 1 ∧ v = factory 0) := by
  obtain ⟨h1, h2, h3, h4⟩ := reachable_inv factory s h
  refine ⟨h1, ?_, ?_⟩
  · intro i j v w hv hw
    rw [h4 i v hv, h4 j w hw]
  · intro i v hv
    refine ⟨?_, h4 i v hv⟩
    cases hc : s.cache with
    | none => exact absurd hv ((h2 hc).2 i v)
    | some w => exact (h3 w hc).2

/- ### A concrete two-caller interleaving -/

def wFactoryC2 : Nat → Nat := fun k => 42 + k

def wS1 : CacheRun 2 :=
  { cache := none, invocations := 0,
    pcs := Function.update (fun _ => CallerPC.start) 0 CallerPC.waiting }

def wS2 : CacheRun 2 :=
  { cache := none, invocations := 0,
    pcs := Function.update wS1.pcs 1 CallerPC.waiting }

def wS3 : CacheRun 2 :=
  { cache := some 42, invocations := 1,
    pcs := Function.update wS2.pcs 0 (CallerPC.done 42) }

/-- Final state of the race: both callers missed the read lock, caller 0 won
the write lock and ran the factory, caller 1 hit the memoized entry. -/
def wRunC2 : CacheRun 2 :=
  { cache := some 42, invocations := 1,
    pcs := Function.update wS3.pcs 1 (CallerPC.done 42) }

/-- Witness for C2: the two-caller race ends with one factory invocation and
both callers holding the same id. -/
theorem get_or_insert_with_spec_witness :
    wRunC2.invocations ≤ 1 ∧ wRunC2.pcs 0 = CallerPC.done 42 ∧
    wRunC2.pcs 1 = CallerPC.done 42 ∧ wRunC2.invocations = 1 := by
  have t1 : CacheStep wFactoryC2 (initRun 2) wS1 :=
    CacheStep.readMiss (initRun 2) 0 rfl rfl
  have t2 : CacheStep wFactoryC2 wS1 wS2 :=
    CacheStep.readMiss wS1 1 rfl rfl
  have t3 : CacheStep wFactoryC2 wS2 wS3 :=
    CacheStep.writeMiss wS2 0 rfl rfl
  have t4 : CacheStep wFactoryC2 wS3 wRunC2 :=
    CacheStep.writeHit wS3 1 42 rfl rfl
  have hreach : Reachable wFactoryC2 wRunC2 :=
    Relation.ReflTransGen.tail
      (Relation.ReflTransGen.tail
        (Relation.ReflTransGen.tail
          (Relation.ReflTransGen.tail Relation.ReflTransGen.refl t1) t2) t3) t4
  have h := get_or_insert_with_spec 2 wFactoryC2 wRunC2 hreach
  exact ⟨h.1, rfl, rfl, (h.2.2 0 42 rfl).1⟩
